import Mathlib

/-!
Verification of the PDF-preprocessing and retrieval post-processing core of
the repository: the Text Normalizer (`normalize_word_breaks`), the Structured
Page Builder (`table_to_html` / `pages_to_html`) from
`ingestion/00_preprocess.py`, and the Chunk Annotator / search wrapper
(`extract_page_from_content` / `search`) from `src/search_tool.py`.

Strings are embedded as `List Char` (`Str`).  Python's regex character
classes `\w`, `\s`, `\d` are modelled on their ASCII fragment, which is the
fragment exercised by every string appearing in the specification; the
substitution passes are translated to deterministic scanners, which is sound
because none of the four patterns needs backtracking beyond the greedy
maximal-run reading (argued pattern by pattern in the doc comments below).
-/

/-- Strings are embedded as lists of characters. -/
abbrev Str := List Char

/-- Python regex `\w` (ASCII fragment): letters, digits, underscore. -/
def isWordChar (c : Char) : Bool := c.isAlphanum || c = '_'

/-- Python regex `\s` (ASCII fragment): space, tab, LF, CR, VT, FF. -/
def isPySpace (c : Char) : Bool :=
  c = ' ' || c = '\t' || c = '\n' || c = '\x0d' || c = '\x0b' || c = '\x0c'

/-- Pattern 1 of `normalize_word_breaks`: match `(\w+)\s+-\s+(\w+)` at the
start of `s`.  All quantifiers are effectively possessive here: each greedy
run is followed by a token of a disjoint character class, so the Python
engine never backtracks into it.  On success returns the replacement `\1\2`
and the remainder of the string after the match. -/
def try1 (s : Str) : Option (Str × Str) :=
  let w1 := s.takeWhile isWordChar
  let r1 := s.dropWhile isWordChar
  let ws1 := r1.takeWhile isPySpace
  let r2 := r1.dropWhile isPySpace
  let ws2 := (r2.drop 1).takeWhile isPySpace
  let r4 := (r2.drop 1).dropWhile isPySpace
  let w2 := r4.takeWhile isWordChar
  let r5 := r4.dropWhile isWordChar
  if w1 ≠ [] ∧ ws1 ≠ [] ∧ r2.head? = some '-' ∧ ws2 ≠ [] ∧ w2 ≠ [] then
    some (w1 ++ w2, r5)
  else none

/-- Pattern 2 of `normalize_word_breaks`: match `(\w+)-\s*\n\s*(\w+)`
(flags `MULTILINE | DOTALL`, both inert: the pattern has no `.`, `^` or `$`)
at the start of `s`.  Backtracking analysis: the engine matches `\s*\n` at
the last newline of the maximal whitespace run after the hyphen, so the
pattern matches exactly when that run contains a newline and the first
character after the run is a word character. -/
def try2 (s : Str) : Option (Str × Str) :=
  let w1 := s.takeWhile isWordChar
  let r1 := s.dropWhile isWordChar
  let ws := (r1.drop 1).takeWhile isPySpace
  let r3 := (r1.drop 1).dropWhile isPySpace
  let w2 := r3.takeWhile isWordChar
  let r4 := r3.dropWhile isWordChar
  if w1 ≠ [] ∧ r1.head? = some '-' ∧ '\n' ∈ ws ∧ w2 ≠ [] then
    some (w1 ++ w2, r4)
  else none

/-- Pattern 3 of `normalize_word_breaks`: match `(\w+)-\s+(\w+)` at the
start of `s` (same possessive-run argument as pattern 1). -/
def try3 (s : Str) : Option (Str × Str) :=
  let w1 := s.takeWhile isWordChar
  let r1 := s.dropWhile isWordChar
  let ws := (r1.drop 1).takeWhile isPySpace
  let r3 := (r1.drop 1).dropWhile isPySpace
  let w2 := r3.takeWhile isWordChar
  let r4 := r3.dropWhile isWordChar
  if w1 ≠ [] ∧ r1.head? = some '-' ∧ ws ≠ [] ∧ w2 ≠ [] then
    some (w1 ++ w2, r4)
  else none
/-- `re.sub` with pattern 1: scan left to right, replace each leftmost
non-overlapping match, resume after the end of the match. -/
def sub1 : Str → Str
  | [] => []
  | c :: rest =>
    match h : try1 (c :: rest) with
    | some (rep, rem) => rep ++ sub1 rem
    | none => c :: sub1 rest
termination_by s => s.length
decreasing_by
  · have key : ∀ (s rp rm : Str), try1 s = some (rp, rm) → rm.length < s.length := by
      intro s rp rm h'
      unfold try1 at h'
      dsimp only at h'
      split at h'
      case isTrue hc =>
        simp only [Option.some.injEq, Prod.mk.injEq] at h'
        obtain ⟨-, -, hhd, -, -⟩ := hc
        set r2 := (s.dropWhile isWordChar).dropWhile isPySpace with hr2
        have hne : r2 ≠ [] := by
          intro hnil; rw [hnil] at hhd; simp at hhd
        have l0 : rm.length ≤ (r2.drop 1).length := by
          rw [← h'.2]
          calc (((r2.drop 1).dropWhile isPySpace).dropWhile isWordChar).length
              ≤ ((r2.drop 1).dropWhile isPySpace).length :=
                (List.dropWhile_suffix _).length_le
            _ ≤ (r2.drop 1).length := (List.dropWhile_suffix _).length_le
        have l1 : 0 < r2.length := List.length_pos.mpr hne
        have l2 : r2.length ≤ (s.dropWhile isWordChar).length := by
          rw [hr2]; exact (List.dropWhile_suffix _).length_le
        have l3 : (s.dropWhile isWordChar).length ≤ s.length :=
          (List.dropWhile_suffix _).length_le
        simp only [List.length_drop] at l0
        omega
      case isFalse => exact absurd h' (by simp)
    exact key _ _ _ h
  · simp

/-- `re.sub` with pattern 2. -/
def sub2 : Str → Str
  | [] => []
  | c :: rest =>
    match h : try2 (c :: rest) with
    | some (rep, rem) => rep ++ sub2 rem
    | none => c :: sub2 rest
termination_by s => s.length
decreasing_by
  · have key : ∀ (s rp rm : Str), try2 s = some (rp, rm) → rm.length < s.length := by
      intro s rp rm h'
      unfold try2 at h'
      dsimp only at h'
      split at h'
      case isTrue hc =>
        simp only [Option.some.injEq, Prod.mk.injEq] at h'
        obtain ⟨-, hhd, -, -⟩ := hc
        set r1 := s.dropWhile isWordChar with hr1
        have hne : r1 ≠ [] := by
          intro hnil; rw [hnil] at hhd; simp at hhd
        have l0 : rm.length ≤ (r1.drop 1).length := by
          rw [← h'.2]
          calc (((r1.drop 1).dropWhile isPySpace).dropWhile isWordChar).length
              ≤ ((r1.drop 1).dropWhile isPySpace).length :=
                (List.dropWhile_suffix _).length_le
            _ ≤ (r1.drop 1).length := (List.dropWhile_suffix _).length_le
        have l1 : 0 < r1.length := List.length_pos.mpr hne
        have l3 : r1.length ≤ s.length := by
          rw [hr1]; exact (List.dropWhile_suffix _).length_le
        simp only [List.length_drop] at l0
        omega
      case isFalse => exact absurd h' (by simp)
    exact key _ _ _ h
  · simp

/-- `re.sub` with pattern 3. -/
def sub3 : Str → Str
  | [] => []
  | c :: rest =>
    match h : try3 (c :: rest) with
    | some (rep, rem) => rep ++ sub3 rem
    | none => c :: sub3 rest
termination_by s => s.length
decreasing_by
  · have key : ∀ (s rp rm : Str), try3 s = some (rp, rm) → rm.length < s.length := by
      intro s rp rm h'
      unfold try3 at h'
      dsimp only at h'
      split at h'
      case isTrue hc =>
        simp only [Option.some.injEq, Prod.mk.injEq] at h'
        obtain ⟨-, hhd, -, -⟩ := hc
        set r1 := s.dropWhile isWordChar with hr1
        have hne : r1 ≠ [] := by
          intro hnil; rw [hnil] at hhd; simp at hhd
        have l0 : rm.length ≤ (r1.drop 1).length := by
          rw [← h'.2]
          calc (((r1.drop 1).dropWhile isPySpace).dropWhile isWordChar).length
              ≤ ((r1.drop 1).dropWhile isPySpace).length :=
                (List.dropWhile_suffix _).length_le
            _ ≤ (r1.drop 1).length := (List.dropWhile_suffix _).length_le
        have l1 : 0 < r1.length := List.length_pos.mpr hne
        have l3 : r1.length ≤ s.length := by
          rw [hr1]; exact (List.dropWhile_suffix _).length_le
        simp only [List.length_drop] at l0
        omega
      case isFalse => exact absurd h' (by simp)
    exact key _ _ _ h
  · simp

/-- `re.sub(r'\n{3,}', '\n\n', text)`: collapse every maximal run of three
or more newlines to exactly two. -/
def collapseNL : Str → Str
  | [] => []
  | c :: rest =>
    if c = '\n' then
      let nls := rest.takeWhile (· = '\n')
      let r := rest.dropWhile (· = '\n')
      (if 2 ≤ nls.length then ['\n', '\n'] else c :: nls) ++ collapseNL r
    else c :: collapseNL rest
termination_by s => s.length
decreasing_by
  · have := (List.dropWhile_suffix (l := rest) (fun x => decide (x = '\n'))).length_le
    simp only [List.length_cons]
    omega
  · simp

/-- `normalize_word_breaks` from `ingestion/00_preprocess.py`: falsy input
is returned unchanged, otherwise apply the four substitution passes in
order. -/
def normalize_word_breaks (text : Str) : Str :=
  if text = [] then text
  else collapseNL (sub3 (sub2 (sub1 text)))

/-- Fuel-driven mirror of `sub1` (structural recursion, so that the kernel
can evaluate concrete instances by `decide`). -/
def sub1F : Nat → Str → Str
  | _, [] => []
  | 0, s => s
  | fuel + 1, c :: rest =>
    match try1 (c :: rest) with
    | some (rep, rem) => rep ++ sub1F fuel rem
    | none => c :: sub1F fuel rest

/-- Fuel-driven mirror of `sub2`. -/
def sub2F : Nat → Str → Str
  | _, [] => []
  | 0, s => s
  | fuel + 1, c :: rest =>
    match try2 (c :: rest) with
    | some (rep, rem) => rep ++ sub2F fuel rem
    | none => c :: sub2F fuel rest

/-- Fuel-driven mirror of `sub3`. -/
def sub3F : Nat → Str → Str
  | _, [] => []
  | 0, s => s
  | fuel + 1, c :: rest =>
    match try3 (c :: rest) with
    | some (rep, rem) => rep ++ sub3F fuel rem
    | none => c :: sub3F fuel rest

/-- Fuel-driven mirror of `collapseNL`. -/
def collapseNLF : Nat → Str → Str
  | _, [] => []
  | 0, s => s
  | fuel + 1, c :: rest =>
    if c = '\n' then
      let nls := rest.takeWhile (· = '\n')
      let r := rest.dropWhile (· = '\n')
      (if 2 ≤ nls.length then ['\n', '\n'] else c :: nls) ++ collapseNLF fuel r
    else c :: collapseNLF fuel rest

/-- Fuel-driven mirror of `normalize_word_breaks`. -/
def normalizeF (text : Str) : Str :=
  if text = [] then text
  else
    let a := sub1F text.length text
    let b := sub2F a.length a
    let c := sub3F b.length b
    collapseNLF c.length c

/-! ### Structured Page Builder (`ingestion/00_preprocess.py`) -/

/-- `html.escape` on one character (`quote=True`, the default used by the
source).  The successive `str.replace` calls of `html.escape` are equivalent
to this character-wise map because no replacement output contains a
character that a later replacement rewrites. -/
def escapeChar (c : Char) : Str :=
  if c = '&' then ("&amp;").data
  else if c = '<' then ("&lt;").data
  else if c = '>' then ("&gt;").data
  else if c = '"' then ("&quot;").data
  else if c = '\'' then ("&#x27;").data
  else [c]

/-- `html.escape(s)`. -/
def htmlEscape (s : Str) : Str := s.flatMap escapeChar

/-- `str.strip()` (ASCII-whitespace fragment). -/
def pyStrip (s : Str) : Str :=
  ((s.dropWhile isPySpace).reverse.dropWhile isPySpace).reverse

/-- Helper for `natStr`: standard decimal digits, most significant first
(the fuel argument only drives structural recursion and is always
sufficient). -/
def natStrAux : Nat → Nat → Str
  | 0, _ => []
  | fuel + 1, n =>
    if n < 10 then [Nat.digitChar n]
    else natStrAux fuel (n / 10) ++ [Nat.digitChar (n % 10)]

/-- Decimal representation of a natural number, as used by the f-strings of
the source for `page_num` and table indices. -/
def natStr (n : Nat) : Str := natStrAux (n + 1) n

/-- `'\n'.join(lines)`. -/
def joinNL : List Str → Str
  | [] => []
  | [p] => p
  | p :: q :: rest => p ++ '\n' :: joinNL (q :: rest)

/-- The `<table ...>` opening line emitted by `table_to_html`. -/
def tableOpenTag : Str :=
  ("<table border=\"1\" cellpadding=\"5\" cellspacing=\"0\" style=\"border-collapse: collapse; margin: 10px 0;\">").data

/-- `str(cell).strip() if cell else ""`: a falsy cell (absent or empty)
becomes the empty string, otherwise the cell text is stripped. -/
def cellText (cell : Option Str) : Str :=
  match cell with
  | none => []
  | some s => if s = [] then [] else pyStrip s

/-- One `<th>`/`<td>` line of `table_to_html` (header tag on row 0). -/
def cellToHtml (rowIdx : Nat) (cell : Option Str) : Str :=
  (if rowIdx = 0 then ("    <th>").data else ("    <td>").data)
    ++ htmlEscape (cellText cell)
    ++ (if rowIdx = 0 then ("</th>").data else ("</td>").data)

/-- The `<tr>` block of lines for one table row. -/
def rowToHtml (rowIdx : Nat) (row : List (Option Str)) : List Str :=
  ("  <tr>").data :: row.map (cellToHtml rowIdx) ++ [("  </tr>").data]

/-- `table_to_html` from `ingestion/00_preprocess.py`: an empty table (no
rows, or empty first row) yields the empty string, otherwise the joined
`<table>` lines with the first row rendered as header cells. -/
def table_to_html (table : List (List (Option Str))) : Str :=
  match table with
  | [] => []
  | r0 :: _ =>
    if r0 = [] then []
    else joinNL (tableOpenTag ::
      (table.enum.flatMap (fun ir => rowToHtml ir.1 ir.2) ++ [("</table>").data]))

/-- One extracted PDF page: `page_num`, normalized `text`, raw `tables`. -/
structure PageRecord where
  page_num : Nat
  text : Str
  tables : List (List (List (Option Str)))
deriving DecidableEq

/-- The optional `text-content` block of lines (emitted only for truthy
page text; identical in both rendering modes). -/
def textBlockParts (text : Str) : List Str :=
  if text = [] then []
  else
    [("<div class=\"text-content\">").data,
      ("<pre style=\"white-space: pre-wrap; font-family: Arial, sans-serif;\">").data
        ++ htmlEscape text ++ ("</pre>").data,
      ("</div>").data]

/-- The lines of one self-contained per-page document in `split_pages`
mode of `pages_to_html`. -/
def splitPageParts (title : Str) (p : PageRecord) : List Str :=
  [("<html><head><title>").data ++ title ++ (" - Page ").data ++ natStr p.page_num
      ++ ("</title></head><body>").data,
    ("<h1>").data ++ title ++ ("</h1>").data,
    ("<h2>Page ").data ++ natStr p.page_num ++ ("</h2>").data]
  ++ textBlockParts p.text
  ++ (if p.tables = [] then []
      else [("<div class=\"tables\">").data] ++ p.tables.map table_to_html
        ++ [("</div>").data])
  ++ [("</body></html>").data]

/-- The lines one page contributes in combined mode of `pages_to_html`. -/
def combinedPageParts (p : PageRecord) : List Str :=
  [("<div class=\"page\" data-page=\"").data ++ natStr p.page_num ++ ("\">").data,
    ("<h2>Page ").data ++ natStr p.page_num ++ ("</h2>").data]
  ++ textBlockParts p.text
  ++ (if p.tables = [] then []
      else [("<div class=\"tables\">").data]
        ++ p.tables.enum.flatMap (fun it =>
            [("<div class=\"table\" data-table=\"").data ++ natStr (it.1 + 1)
                ++ ("\">").data,
              table_to_html it.2,
              ("</div>").data])
        ++ [("</div>").data])
  ++ [("</div>").data, ("<hr style=\"margin: 20px 0;\">").data]

/-- `pages_to_html` from `ingestion/00_preprocess.py`.  In `split_pages`
mode the returned list holds one complete document per page; in combined
mode it holds the lines of the single document (joined with `'\n'` by the
caller, mirrored by `joinNL`). -/
def pages_to_html (pages_data : List PageRecord) (title : Str)
    (split_pages : Bool) : List Str :=
  if split_pages then
    pages_data.map (fun p => joinNL (splitPageParts title p))
  else
    [("<html><head><title>").data ++ title ++ ("</title></head><body>").data,
      ("<h1>").data ++ title ++ ("</h1>").data]
    ++ pages_data.flatMap combinedPageParts
    ++ [("</body></html>").data]

/-- Number of (possibly overlapping) occurrences of `pat` in `s`: one per
start position at which `pat` is a prefix of the remaining suffix. -/
def countSub (pat : Str) : Str → Nat
  | [] => 0
  | c :: rest => (if pat <+: (c :: rest) then 1 else 0) + countSub pat rest

/-! ### Chunk Annotator (`src/search_tool.py`) -/

/-- Case-insensitive test for the literal `Page` at the start (the ASCII
fragment of `re.IGNORECASE`). -/
def startsWithPageCI : Str → Bool
  | p :: a :: g :: e :: _ =>
    p.toLower == 'p' && a.toLower == 'a' && g.toLower == 'g' && e.toLower == 'e'
  | _ => false

/-- Match `Page\s+(\d+)` at the start of `s`, returning the captured digit
group.  `\s+` and `\d+` are greedy with disjoint follow sets, so the greedy
maximal-run reading is exact. -/
def matchPageNum (s : Str) : Option Str :=
  if startsWithPageCI s then
    let r := s.drop 4
    let ws := r.takeWhile isPySpace
    let r2 := r.dropWhile isPySpace
    let ds := r2.takeWhile Char.isDigit
    if ws ≠ [] ∧ ds ≠ [] then some ds else none
  else none

/-- `re.search(r'Page\s+(\d+)', content, re.IGNORECASE)`: the leftmost
match wins. -/
def searchBarePage : Str → Option Str
  | [] => none
  | c :: rest =>
    match matchPageNum (c :: rest) with
    | some ds => some ds
    | none => searchBarePage rest

/-- Match `##\s*Page\s+(\d+)` at the start of `s`. -/
def matchHeadingAt : Str → Option Str
  | '#' :: '#' :: r => matchPageNum (r.dropWhile isPySpace)
  | _ => none

/-- `re.search(r'##\s*Page\s+(\d+)', content, re.IGNORECASE)`. -/
def searchHeadingPage : Str → Option Str
  | [] => none
  | c :: rest =>
    match matchHeadingAt (c :: rest) with
    | some ds => some ds
    | none => searchHeadingPage rest

/-- `int(...)` on the digit-only strings produced by the regex captures
(Python's `int` also accepts signs and surrounding whitespace, which cannot
occur in a `\d+` capture). -/
def pyIntDigits (s : Str) : Option Nat :=
  if s ≠ [] ∧ s.all Char.isDigit then
    some (s.foldl (fun n c => 10 * n + (c.toNat - 48)) 0)
  else none

/-- One iteration of the pattern loop of `extract_page_from_content`:
on a match return `int(group(1))`, falling through to the next pattern if
the parse raises. -/
def tryParseThen (r : Option Str) (next : Option Nat) : Option Nat :=
  match r with
  | some ds =>
    match pyIntDigits ds with
    | some n => some n
    | none => next
  | none => next

/-- `extract_page_from_content` from `src/search_tool.py`. -/
def extract_page_from_content (content : Str) : Option Nat :=
  if content = [] then none
  else tryParseThen (searchHeadingPage content)
    (tryParseThen (searchBarePage content) none)

/-- The fields of a search-result document used by `search`. -/
structure PyDoc where
  id : Str
  struct_data : List (Str × Str)
  derived_struct_data : List (Str × Str)
deriving DecidableEq

/-- One raw search result: its document and the chunk content. -/
structure PyChunkRes where
  doc : PyDoc
  content : Str
deriving DecidableEq

/-- `dict.get` on a proto map (no duplicate keys). -/
def dictGet (d : List (Str × Str)) (k : Str) : Option Str :=
  (d.find? (fun kv => kv.1 == k)).map (fun kv => kv.2)

/-- Python truthiness of an optional string: absent and empty are falsy. -/
def pyTruthy (v : Option Str) : Bool :=
  match v with
  | none => false
  | some s => !s.isEmpty

/-- Python's `or` on optional strings: the left value if truthy, else the
right value. -/
def pyOr (a b : Option Str) : Option Str := if pyTruthy a then a else b

/-- The chunk record assembled by the loop body of `search`. -/
structure RetrievedChunk where
  content : Str
  title : Option Str
  uri : Option Str
  document_id : Option Str
  page : Option Nat
deriving DecidableEq

/-- The loop body of `search`: provenance fields resolved through the
`or`-fallback chains, page number recovered from the chunk content. -/
def mkChunk (r : PyChunkRes) : RetrievedChunk :=
  let struct := r.doc.struct_data
  let derived := r.doc.derived_struct_data
  { content := r.content
    title := pyOr (dictGet struct ("title").data) (dictGet derived ("title").data)
    uri := pyOr (dictGet struct ("uri").data)
      (pyOr (dictGet struct ("link").data) (dictGet derived ("link").data))
    document_id := if r.doc.id = [] then none else some r.doc.id
    page := extract_page_from_content r.content }

/-- The dictionary returned by `search` (`error` is present exactly on the
exception path). -/
structure SearchResponse where
  chunks : List RetrievedChunk
  query : Str
  total_results : Nat
  error : Option Str
deriving DecidableEq

/-- `search` from `src/search_tool.py`, with the backend call abstracted as
an `Except` value: an exception anywhere in the `try` block produces the
error record; otherwise chunks with falsy content are skipped and the rest
annotated. -/
def search (query : Str) (backend : Except Str (List PyChunkRes)) : SearchResponse :=
  match backend with
  | Except.error e => { chunks := [], query := query, total_results := 0, error := some e }
  | Except.ok results =>
    let chunks := results.filterMap
      (fun r => if r.content = [] then none else some (mkChunk r))
    { chunks := chunks, query := query, total_results := chunks.length, error := none }

/-! ## Theorems -/


theorem length_dropWhile_le (p : Char → Bool) (l : Str) :
    (l.dropWhile p).length ≤ l.length :=
  (List.dropWhile_suffix p).length_le

theorem try1_rem_length {s rep rem : Str} (h : try1 s = some (rep, rem)) :
    rem.length < s.length := by
  unfold try1 at h
  dsimp only at h
  split at h
  case isTrue hc =>
    simp only [Option.some.injEq, Prod.mk.injEq] at h
    obtain ⟨-, -, hhd, -, -⟩ := hc
    set r2 := (s.dropWhile isWordChar).dropWhile isPySpace with hr2
    have hne : r2 ≠ [] := by
      intro hnil; rw [hnil] at hhd; simp at hhd
    have l0 : rem.length ≤ (r2.drop 1).length := by
      rw [← h.2]
      calc (((r2.drop 1).dropWhile isPySpace).dropWhile isWordChar).length
          ≤ ((r2.drop 1).dropWhile isPySpace).length := length_dropWhile_le _ _
        _ ≤ (r2.drop 1).length := length_dropWhile_le _ _
    have l1 : (r2.drop 1).length < r2.length := by
      have := List.length_pos.mpr hne
      simp only [List.length_drop]
      omega
    have l2 : r2.length ≤ (s.dropWhile isWordChar).length := by
      rw [hr2]; exact length_dropWhile_le _ _
    have l3 : (s.dropWhile isWordChar).length ≤ s.length := length_dropWhile_le _ _
    omega
  case isFalse => exact absurd h (by simp)

theorem try2_rem_length {s rep rem : Str} (h : try2 s = some (rep, rem)) :
    rem.length < s.length := by
  unfold try2 at h
  dsimp only at h
  split at h
  case isTrue hc =>
    simp only [Option.some.injEq, Prod.mk.injEq] at h
    obtain ⟨-, hhd, -, -⟩ := hc
    set r1 := s.dropWhile isWordChar with hr1
    have hne : r1 ≠ [] := by
      intro hnil; rw [hnil] at hhd; simp at hhd
    have l0 : rem.length ≤ (r1.drop 1).length := by
      rw [← h.2]
      calc (((r1.drop 1).dropWhile isPySpace).dropWhile isWordChar).length
          ≤ ((r1.drop 1).dropWhile isPySpace).length := length_dropWhile_le _ _
        _ ≤ (r1.drop 1).length := length_dropWhile_le _ _
    have l1 : (r1.drop 1).length < r1.length := by
      have := List.length_pos.mpr hne
      simp only [List.length_drop]
      omega
    have l3 : r1.length ≤ s.length := by rw [hr1]; exact length_dropWhile_le _ _
    omega
  case isFalse => exact absurd h (by simp)

theorem try3_rem_length {s rep rem : Str} (h : try3 s = some (rep, rem)) :
    rem.length < s.length := by
  unfold try3 at h
  dsimp only at h
  split at h
  case isTrue hc =>
    simp only [Option.some.injEq, Prod.mk.injEq] at h
    obtain ⟨-, hhd, -, -⟩ := hc
    set r1 := s.dropWhile isWordChar with hr1
    have hne : r1 ≠ [] := by
      intro hnil; rw [hnil] at hhd; simp at hhd
    have l0 : rem.length ≤ (r1.drop 1).length := by
      rw [← h.2]
      calc (((r1.drop 1).dropWhile isPySpace).dropWhile isWordChar).length
          ≤ ((r1.drop 1).dropWhile isPySpace).length := length_dropWhile_le _ _
        _ ≤ (r1.drop 1).length := length_dropWhile_le _ _
    have l1 : (r1.drop 1).length < r1.length := by
      have := List.length_pos.mpr hne
      simp only [List.length_drop]
      omega
    have l3 : r1.length ≤ s.length := by rw [hr1]; exact length_dropWhile_le _ _
    omega
  case isFalse => exact absurd h (by simp)



/-! ### Basic `takeWhile` / `dropWhile` facts -/

theorem mem_of_mem_takeWhile {p : Char → Bool} {l : Str} {a : Char}
    (h : a ∈ l.takeWhile p) : a ∈ l := by
  have heq := List.takeWhile_append_dropWhile p l
  rw [← heq]
  exact List.mem_append_left _ h

theorem mem_of_mem_dropWhile {p : Char → Bool} {l : Str} {a : Char}
    (h : a ∈ l.dropWhile p) : a ∈ l :=
  (List.dropWhile_suffix p).subset h

theorem takeWhile_append_all {p : Char → Bool} {a : Str} (b : Str)
    (h : ∀ c ∈ a, p c) : (a ++ b).takeWhile p = a ++ b.takeWhile p := by
  induction a with
  | nil => simp
  | cons c t ih =>
    have hc : p c := h c (by simp)
    simp only [List.cons_append, List.takeWhile_cons, hc, if_true]
    rw [ih (fun x hx => h x (by simp [hx]))]

theorem dropWhile_append_all {p : Char → Bool} {a : Str} (b : Str)
    (h : ∀ c ∈ a, p c) : (a ++ b).dropWhile p = b.dropWhile p := by
  induction a with
  | nil => simp
  | cons c t ih =>
    have hc : p c := h c (by simp)
    simp only [List.cons_append, List.dropWhile_cons, hc, if_true]
    exact ih (fun x hx => h x (by simp [hx]))

theorem takeWhile_append_bad {p : Char → Bool} {a : Str} (b : Str)
    (h : ∃ c ∈ a, ¬ p c) : (a ++ b).takeWhile p = a.takeWhile p := by
  induction a with
  | nil => obtain ⟨c, hc, -⟩ := h; simp at hc
  | cons c t ih =>
    by_cases hc : p c
    · simp only [List.cons_append, List.takeWhile_cons, hc, if_true]
      obtain ⟨x, hx, hpx⟩ := h
      rcases List.mem_cons.mp hx with rfl | hxt
      · exact absurd hc hpx
      · rw [ih ⟨x, hxt, hpx⟩]
    · simp [List.takeWhile_cons, hc]

theorem dropWhile_append_bad {p : Char → Bool} {a : Str} (b : Str)
    (h : ∃ c ∈ a, ¬ p c) : (a ++ b).dropWhile p = a.dropWhile p ++ b := by
  induction a with
  | nil => obtain ⟨c, hc, -⟩ := h; simp at hc
  | cons c t ih =>
    by_cases hc : p c
    · simp only [List.cons_append, List.dropWhile_cons, hc, if_true]
      obtain ⟨x, hx, hpx⟩ := h
      rcases List.mem_cons.mp hx with rfl | hxt
      · exact absurd hc hpx
      · rw [ih ⟨x, hxt, hpx⟩]
    · simp [List.dropWhile_cons, hc]

theorem dropWhile_ne_nil_of_bad {p : Char → Bool} {a : Str}
    (h : ∃ c ∈ a, ¬ p c) : a.dropWhile p ≠ [] := by
  induction a with
  | nil => obtain ⟨c, hc, -⟩ := h; simp at hc
  | cons c t ih =>
    by_cases hc : p c
    · simp only [List.dropWhile_cons, hc, if_true]
      obtain ⟨x, hx, hpx⟩ := h
      rcases List.mem_cons.mp hx with rfl | hxt
      · exact absurd hc hpx
      · exact ih ⟨x, hxt, hpx⟩
    · simp [List.dropWhile_cons, hc]

theorem head_dropWhile_not {p : Char → Bool} {l : Str} {x : Char}
    (h : (l.dropWhile p).head? = some x) : p x = false := by
  induction l with
  | nil => simp at h
  | cons c t ih =>
    by_cases hc : p c
    · simp only [List.dropWhile_cons, hc, if_true] at h; exact ih h
    · simp only [List.dropWhile_cons, if_neg hc] at h
      simp only [List.head?_cons, Option.some.injEq] at h
      subst h
      simpa using hc

/-! ### No-hyphen inputs are fixed points of the three hyphen passes -/

theorem try1_mem_hyphen {s : Str} {x : Str × Str} (h : try1 s = some x) :
    '-' ∈ s := by
  unfold try1 at h
  dsimp only at h
  split at h
  case isTrue hc =>
    have hhd := hc.2.2.1
    have hmem : '-' ∈ (s.dropWhile isWordChar).dropWhile isPySpace := by
      cases hm : (s.dropWhile isWordChar).dropWhile isPySpace with
      | nil => rw [hm] at hhd; simp at hhd
      | cons a t =>
        rw [hm] at hhd
        simp only [List.head?_cons, Option.some.injEq] at hhd
        rw [← hhd]; simp
    exact mem_of_mem_dropWhile (mem_of_mem_dropWhile hmem)
  case isFalse => simp at h

theorem try2_mem_hyphen {s : Str} {x : Str × Str} (h : try2 s = some x) :
    '-' ∈ s := by
  unfold try2 at h
  dsimp only at h
  split at h
  case isTrue hc =>
    have hhd := hc.2.1
    have hmem : '-' ∈ s.dropWhile isWordChar := by
      cases hm : s.dropWhile isWordChar with
      | nil => rw [hm] at hhd; simp at hhd
      | cons a t =>
        rw [hm] at hhd
        simp only [List.head?_cons, Option.some.injEq] at hhd
        rw [← hhd]; simp
    exact mem_of_mem_dropWhile hmem
  case isFalse => simp at h

theorem try3_mem_hyphen {s : Str} {x : Str × Str} (h : try3 s = some x) :
    '-' ∈ s := by
  unfold try3 at h
  dsimp only at h
  split at h
  case isTrue hc =>
    have hhd := hc.2.1
    have hmem : '-' ∈ s.dropWhile isWordChar := by
      cases hm : s.dropWhile isWordChar with
      | nil => rw [hm] at hhd; simp at hhd
      | cons a t =>
        rw [hm] at hhd
        simp only [List.head?_cons, Option.some.injEq] at hhd
        rw [← hhd]; simp
    exact mem_of_mem_dropWhile hmem
  case isFalse => simp at h

theorem sub1_id_of_no_hyphen : ∀ s : Str, '-' ∉ s → sub1 s = s := by
  intro s
  induction s using sub1.induct with
  | case1 => intro _; rw [sub1]
  | case2 c rest rep rem heq ih =>
    intro hno
    exact absurd (try1_mem_hyphen heq) hno
  | case3 c rest heq ih =>
    intro hno
    rw [sub1, heq]
    rw [ih (fun hm => hno (List.mem_cons_of_mem c hm))]

theorem sub2_id_of_no_hyphen : ∀ s : Str, '-' ∉ s → sub2 s = s := by
  intro s
  induction s using sub2.induct with
  | case1 => intro _; rw [sub2]
  | case2 c rest rep rem heq ih =>
    intro hno
    exact absurd (try2_mem_hyphen heq) hno
  | case3 c rest heq ih =>
    intro hno
    rw [sub2, heq]
    rw [ih (fun hm => hno (List.mem_cons_of_mem c hm))]

theorem sub3_id_of_no_hyphen : ∀ s : Str, '-' ∉ s → sub3 s = s := by
  intro s
  induction s using sub3.induct with
  | case1 => intro _; rw [sub3]
  | case2 c rest rep rem heq ih =>
    intro hno
    exact absurd (try3_mem_hyphen heq) hno
  | case3 c rest heq ih =>
    intro hno
    rw [sub3, heq]
    rw [ih (fun hm => hno (List.mem_cons_of_mem c hm))]

/-! ### Structure of `collapseNL` -/

theorem collapseNL_cons_nl (rest : Str) :
    collapseNL ('\n' :: rest) =
      (if 2 ≤ (rest.takeWhile (· = '\n')).length then ['\n', '\n']
       else '\n' :: rest.takeWhile (· = '\n')) ++
        collapseNL (rest.dropWhile (· = '\n')) := by
  rw [collapseNL]
  simp

theorem collapseNL_cons (c : Char) (rest : Str) (h : c ≠ '\n') :
    collapseNL (c :: rest) = c :: collapseNL rest := by
  rw [collapseNL]
  simp [h]

theorem mem_collapseNL : ∀ (s : Str) (x : Char), x ∈ collapseNL s → x ∈ s := by
  intro s
  induction s using collapseNL.induct with
  | case1 => intro x h; rw [collapseNL] at h; simp at h
  | case2 rest r ih =>
    intro x h
    rw [collapseNL_cons_nl] at h
    rcases List.mem_append.mp h with h1 | h2
    · split at h1
      · simp only [List.mem_cons, List.not_mem_nil, or_false] at h1
        rcases h1 with rfl | rfl <;> simp
      · rcases List.mem_cons.mp h1 with rfl | hm
        · simp
        · exact List.mem_cons_of_mem _ (mem_of_mem_takeWhile hm)
    · exact List.mem_cons_of_mem _ (mem_of_mem_dropWhile (ih x h2))
  | case3 c rest hne ih =>
    intro x h
    rw [collapseNL_cons c rest hne] at h
    rcases List.mem_cons.mp h with rfl | hm
    · simp
    · exact List.mem_cons_of_mem _ (ih x hm)

theorem head_collapseNL_ne_nl {s : Str} (h : s.head? ≠ some '\n') :
    (collapseNL s).head? ≠ some '\n' := by
  cases s with
  | nil => rw [collapseNL]; simp
  | cons c rest =>
    have hc : c ≠ '\n' := by
      intro hcc
      exact h (by rw [hcc]; rfl)
    rw [collapseNL_cons c rest hc]
    simpa using hc

theorem collapse_one_nl {y : Str} (h : y.head? ≠ some '\n') :
    collapseNL ('\n' :: y) = '\n' :: collapseNL y := by
  have hc : ∀ c t, y = c :: t → c ≠ '\n' := by
    intro c t hy hcc
    exact h (by rw [hy, hcc]; rfl)
  have ht : y.takeWhile (· = '\n') = [] := by
    cases hy : y with
    | nil => simp
    | cons c t => simp [List.takeWhile_cons, hc c t hy]
  have hd : y.dropWhile (· = '\n') = y := by
    cases hy : y with
    | nil => simp
    | cons c t => simp [List.dropWhile_cons, hc c t hy]
  rw [collapseNL_cons_nl, ht, hd]
  simp

theorem collapse_two_nl {y : Str} (h : y.head? ≠ some '\n') :
    collapseNL ('\n' :: '\n' :: y) = '\n' :: '\n' :: collapseNL y := by
  have hc : ∀ c t, y = c :: t → c ≠ '\n' := by
    intro c t hy hcc
    exact h (by rw [hy, hcc]; rfl)
  have ht0 : y.takeWhile (· = '\n') = [] := by
    cases hy : y with
    | nil => simp
    | cons c t => simp [List.takeWhile_cons, hc c t hy]
  have hd0 : y.dropWhile (· = '\n') = y := by
    cases hy : y with
    | nil => simp
    | cons c t => simp [List.dropWhile_cons, hc c t hy]
  have ht : ('\n' :: y).takeWhile (· = '\n') = ['\n'] := by
    simp [List.takeWhile_cons, ht0]
  have hd : ('\n' :: y).dropWhile (· = '\n') = y := by
    simp [List.dropWhile_cons, hd0]
  rw [collapseNL_cons_nl, ht, hd]
  simp

theorem collapseNL_idem : ∀ s : Str, collapseNL (collapseNL s) = collapseNL s := by
  intro s
  induction s using collapseNL.induct with
  | case1 => rw [collapseNL]; rw [collapseNL]
  | case2 rest r ih =>
    rw [collapseNL_cons_nl]
    have hrhead : (rest.dropWhile (· = '\n')).head? ≠ some '\n' := by
      intro hh
      have := head_dropWhile_not hh
      simp at this
    have hchead : (collapseNL (rest.dropWhile (· = '\n'))).head? ≠ some '\n' :=
      head_collapseNL_ne_nl hrhead
    have hall : ∀ x ∈ rest.takeWhile (· = '\n'), x = '\n' := by
      intro x hx
      have := List.mem_takeWhile_imp hx
      simpa using this
    by_cases hlen : 2 ≤ (rest.takeWhile (· = '\n')).length
    · rw [if_pos hlen]
      show collapseNL ('\n' :: '\n' :: collapseNL (rest.dropWhile (· = '\n'))) = _
      rw [collapse_two_nl hchead, ih]
      rfl
    · rw [if_neg hlen]
      have hsmall : rest.takeWhile (· = '\n') = [] ∨
          rest.takeWhile (· = '\n') = ['\n'] := by
        cases htw : rest.takeWhile (· = '\n') with
        | nil => exact Or.inl rfl
        | cons a t =>
          cases t with
          | nil =>
            right
            have : a = '\n' := hall a (by rw [htw]; simp)
            rw [this]
          | cons b u =>
            rw [htw] at hlen
            simp at hlen
      rcases hsmall with hs | hs
      · rw [hs]
        show collapseNL ('\n' :: collapseNL (rest.dropWhile (· = '\n'))) = _
        rw [collapse_one_nl hchead, ih]
        rfl
      · rw [hs]
        show collapseNL ('\n' :: '\n' :: collapseNL (rest.dropWhile (· = '\n'))) = _
        rw [collapse_two_nl hchead, ih]
        rfl
  | case3 c rest hne ih =>
    rw [collapseNL_cons c rest hne, collapseNL_cons c _ hne, ih]

theorem normalize_eq_collapse_of_no_hyphen {t : Str} (h : '-' ∉ t) :
    normalize_word_breaks t = collapseNL t := by
  unfold normalize_word_breaks
  by_cases ht : t = []
  · subst ht
    rw [if_pos rfl, collapseNL]
  · rw [if_neg ht, sub1_id_of_no_hyphen t h, sub2_id_of_no_hyphen t h,
      sub3_id_of_no_hyphen t h]

/-! ### Fuel mirrors agree with the scanners -/

theorem sub1F_congr : ∀ (f g : Nat) (s : Str),
    s.length ≤ f → s.length ≤ g → sub1F f s = sub1F g s := by
  intro f
  induction f with
  | zero =>
    intro g s hf _
    have hs : s = [] := List.length_eq_zero.mp (Nat.le_zero.mp hf)
    subst hs
    cases g <;> rfl
  | succ f ih =>
    intro g s hf hg
    cases s with
    | nil => cases g <;> rfl
    | cons c rest =>
      cases g with
      | zero => simp at hg
      | succ g' =>
        simp only [List.length_cons] at hf hg
        cases htry : try1 (c :: rest) with
        | some pr =>
          obtain ⟨rep, rem⟩ := pr
          have hlt := try1_rem_length htry
          simp only [List.length_cons] at hlt
          simp only [sub1F, htry]
          rw [ih g' rem (by omega) (by omega)]
        | none =>
          simp only [sub1F, htry]
          rw [ih g' rest (by omega) (by omega)]

theorem sub2F_congr : ∀ (f g : Nat) (s : Str),
    s.length ≤ f → s.length ≤ g → sub2F f s = sub2F g s := by
  intro f
  induction f with
  | zero =>
    intro g s hf _
    have hs : s = [] := List.length_eq_zero.mp (Nat.le_zero.mp hf)
    subst hs
    cases g <;> rfl
  | succ f ih =>
    intro g s hf hg
    cases s with
    | nil => cases g <;> rfl
    | cons c rest =>
      cases g with
      | zero => simp at hg
      | succ g' =>
        simp only [List.length_cons] at hf hg
        cases htry : try2 (c :: rest) with
        | some pr =>
          obtain ⟨rep, rem⟩ := pr
          have hlt := try2_rem_length htry
          simp only [List.length_cons] at hlt
          simp only [sub2F, htry]
          rw [ih g' rem (by omega) (by omega)]
        | none =>
          simp only [sub2F, htry]
          rw [ih g' rest (by omega) (by omega)]

theorem sub3F_congr : ∀ (f g : Nat) (s : Str),
    s.length ≤ f → s.length ≤ g → sub3F f s = sub3F g s := by
  intro f
  induction f with
  | zero =>
    intro g s hf _
    have hs : s = [] := List.length_eq_zero.mp (Nat.le_zero.mp hf)
    subst hs
    cases g <;> rfl
  | succ f ih =>
    intro g s hf hg
    cases s with
    | nil => cases g <;> rfl
    | cons c rest =>
      cases g with
      | zero => simp at hg
      | succ g' =>
        simp only [List.length_cons] at hf hg
        cases htry : try3 (c :: rest) with
        | some pr =>
          obtain ⟨rep, rem⟩ := pr
          have hlt := try3_rem_length htry
          simp only [List.length_cons] at hlt
          simp only [sub3F, htry]
          rw [ih g' rem (by omega) (by omega)]
        | none =>
          simp only [sub3F, htry]
          rw [ih g' rest (by omega) (by omega)]

theorem collapseNLF_congr : ∀ (f g : Nat) (s : Str),
    s.length ≤ f → s.length ≤ g → collapseNLF f s = collapseNLF g s := by
  intro f
  induction f with
  | zero =>
    intro g s hf _
    have hs : s = [] := List.length_eq_zero.mp (Nat.le_zero.mp hf)
    subst hs
    cases g <;> rfl
  | succ f ih =>
    intro g s hf hg
    cases s with
    | nil => cases g <;> rfl
    | cons c rest =>
      cases g with
      | zero => simp at hg
      | succ g' =>
        simp only [List.length_cons] at hf hg
        have hdrop : (rest.dropWhile (· = '\n')).length ≤ rest.length :=
          (List.dropWhile_suffix _).length_le
        by_cases hc : c = '\n'
        · simp only [collapseNLF, if_pos hc]
          rw [ih g' (rest.dropWhile (· = '\n')) (by omega) (by omega)]
        · simp only [collapseNLF, if_neg hc]
          rw [ih g' rest (by omega) (by omega)]

theorem sub1_eq_fuel : ∀ s : Str, sub1 s = sub1F s.length s := by
  intro s
  induction s using sub1.induct with
  | case1 => rw [sub1]; rfl
  | case2 c rest rep rem heq ih =>
    rw [sub1, heq]
    dsimp only
    rw [ih]
    have hlt := try1_rem_length heq
    simp only [List.length_cons] at hlt
    show _ = sub1F (rest.length + 1) (c :: rest)
    simp only [sub1F, heq]
    rw [sub1F_congr rem.length rest.length rem le_rfl (by omega)]
  | case3 c rest heq ih =>
    rw [sub1, heq]
    dsimp only
    rw [ih]
    show _ = sub1F (rest.length + 1) (c :: rest)
    simp only [sub1F, heq]

theorem sub2_eq_fuel : ∀ s : Str, sub2 s = sub2F s.length s := by
  intro s
  induction s using sub2.induct with
  | case1 => rw [sub2]; rfl
  | case2 c rest rep rem heq ih =>
    rw [sub2, heq]
    dsimp only
    rw [ih]
    have hlt := try2_rem_length heq
    simp only [List.length_cons] at hlt
    show _ = sub2F (rest.length + 1) (c :: rest)
    simp only [sub2F, heq]
    rw [sub2F_congr rem.length rest.length rem le_rfl (by omega)]
  | case3 c rest heq ih =>
    rw [sub2, heq]
    dsimp only
    rw [ih]
    show _ = sub2F (rest.length + 1) (c :: rest)
    simp only [sub2F, heq]

theorem sub3_eq_fuel : ∀ s : Str, sub3 s = sub3F s.length s := by
  intro s
  induction s using sub3.induct with
  | case1 => rw [sub3]; rfl
  | case2 c rest rep rem heq ih =>
    rw [sub3, heq]
    dsimp only
    rw [ih]
    have hlt := try3_rem_length heq
    simp only [List.length_cons] at hlt
    show _ = sub3F (rest.length + 1) (c :: rest)
    simp only [sub3F, heq]
    rw [sub3F_congr rem.length rest.length rem le_rfl (by omega)]
  | case3 c rest heq ih =>
    rw [sub3, heq]
    dsimp only
    rw [ih]
    show _ = sub3F (rest.length + 1) (c :: rest)
    simp only [sub3F, heq]

theorem collapseNL_eq_fuel : ∀ s : Str, collapseNL s = collapseNLF s.length s := by
  intro s
  induction s using collapseNL.induct with
  | case1 => rw [collapseNL]; rfl
  | case2 rest r ih =>
    rw [collapseNL_cons_nl, ih]
    have hdrop : (rest.dropWhile (· = '\n')).length ≤ rest.length :=
      (List.dropWhile_suffix _).length_le
    show _ = collapseNLF (rest.length + 1) ('\n' :: rest)
    simp only [collapseNLF, if_pos rfl]
    rw [collapseNLF_congr (rest.dropWhile (· = '\n')).length rest.length _ le_rfl hdrop]
    simp
  | case3 c rest hne ih =>
    rw [collapseNL_cons c rest hne, ih]
    show _ = collapseNLF (rest.length + 1) (c :: rest)
    simp only [collapseNLF, if_neg hne]

theorem normalize_eq_fuel (t : Str) : normalize_word_breaks t = normalizeF t := by
  unfold normalize_word_breaks normalizeF
  by_cases ht : t = []
  · simp [ht]
  · rw [if_neg ht, if_neg ht]
    rw [sub1_eq_fuel, sub2_eq_fuel, sub3_eq_fuel, collapseNL_eq_fuel]

/-- C1 (counterexample): `normalize_word_breaks` is not idempotent.  On
`"a - b - c"` the first pass rewrites the leftmost match `"a - b"` to
`"ab"` and resumes scanning after it, leaving `"ab - c"`, which a second
application rewrites further to `"abc"`. -/
theorem normalize_not_idempotent_cex :
    normalize_word_breaks (normalize_word_breaks ("a - b - c").data) ≠
      normalize_word_breaks ("a - b - c").data := by
  simp only [normalize_eq_fuel]
  decide

/-- C1 (amended): the Text Normalizer is idempotent on every string that
contains no hyphen: for such `t` the three hyphen-repair passes are the
identity, and the newline-collapsing pass is idempotent. -/
theorem normalize_idempotent_of_no_hyphen (t : Str) (h : '-' ∉ t) :
    normalize_word_breaks (normalize_word_breaks t) = normalize_word_breaks t := by
  have h2 : '-' ∉ collapseNL t := fun hm => h (mem_collapseNL t '-' hm)
  rw [normalize_eq_collapse_of_no_hyphen h, normalize_eq_collapse_of_no_hyphen h2,
    collapseNL_idem]

/-- C1 (witness): the amended idempotence theorem applied at the concrete
hyphen-free input `"a\n\n\n\nb"`. -/
theorem normalize_idempotent_of_no_hyphen_witness :
    normalize_word_breaks (normalize_word_breaks ("a\n\n\n\nb").data) =
      normalize_word_breaks ("a\n\n\n\nb").data :=
  normalize_idempotent_of_no_hyphen _ (by decide)


/-! ### Appending and newline runs under `collapseNL` -/

theorem collapseNL_nil : collapseNL [] = [] := by rw [collapseNL]

theorem getLast?_isSome_of_ne_nil : ∀ {l : Str}, l ≠ [] → ∃ x, l.getLast? = some x := by
  intro l
  induction l with
  | nil => intro h; exact absurd rfl h
  | cons c t ih =>
    intro _
    cases ht : t with
    | nil => exact ⟨c, by simp⟩
    | cons x u =>
      obtain ⟨y, hy⟩ := ih (by simp [ht])
      rw [ht] at hy
      exact ⟨y, by rw [List.getLast?_cons_cons, hy]⟩

theorem mem_of_getLast?_eq : ∀ {l : Str} {x : Char}, l.getLast? = some x → x ∈ l := by
  intro l
  induction l with
  | nil => intro x h; simp at h
  | cons c t ih =>
    intro x h
    cases ht : t with
    | nil =>
      subst ht
      simp only [List.getLast?_singleton, Option.some.injEq] at h
      simp [h]
    | cons y u =>
      subst ht
      rw [List.getLast?_cons_cons] at h
      exact List.mem_cons_of_mem _ (ih h)

theorem collapse_append_clean : ∀ (a b : Str), a.getLast? ≠ some '\n' →
    collapseNL (a ++ b) = collapseNL a ++ collapseNL b := by
  intro a
  induction a using collapseNL.induct with
  | case1 =>
    intro b _
    simp only [List.nil_append, collapseNL_nil]
  | case2 rest r ih =>
    intro b hlast
    have hrne : rest ≠ [] := by
      intro h0
      subst h0
      exact hlast (by simp)
    have hglast : rest.getLast? = ('\n' :: rest).getLast? := by
      cases rest with
      | nil => exact absurd rfl hrne
      | cons x t => rw [List.getLast?_cons_cons]
    have hrlast : rest.getLast? ≠ some '\n' := by rw [hglast]; exact hlast
    obtain ⟨g, hg⟩ := getLast?_isSome_of_ne_nil hrne
    have hgmem : g ∈ rest := mem_of_getLast?_eq hg
    have hgne : g ≠ '\n' := by
      intro h0
      subst h0
      exact hrlast hg
    have hbad : ∃ x ∈ rest, ¬ ((fun x => decide (x = '\n')) x : Bool) :=
      ⟨g, hgmem, by simp [hgne]⟩
    have htw : (rest ++ b).takeWhile (· = '\n') = rest.takeWhile (· = '\n') :=
      takeWhile_append_bad b hbad
    have hdw : (rest ++ b).dropWhile (· = '\n') = rest.dropWhile (· = '\n') ++ b :=
      dropWhile_append_bad b hbad
    have hrne2 : rest.dropWhile (· = '\n') ≠ [] := dropWhile_ne_nil_of_bad hbad
    have hrdlast : (rest.dropWhile (· = '\n')).getLast? = rest.getLast? := by
      conv => rhs; rw [← List.takeWhile_append_dropWhile (· = '\n') rest]
      rw [List.getLast?_append]
      obtain ⟨y, hy⟩ := getLast?_isSome_of_ne_nil hrne2
      rw [hy]
      rfl
    show collapseNL (('\n' :: rest) ++ b) = _
    rw [List.cons_append, collapseNL_cons_nl, collapseNL_cons_nl, htw, hdw,
      ih b (by rw [hrdlast]; exact hrlast), List.append_assoc]
  | case3 c rest hne ih =>
    intro b hlast
    rw [List.cons_append, collapseNL_cons c _ hne, collapseNL_cons c rest hne]
    cases hr : rest with
    | nil =>
      subst hr
      simp [collapseNL_nil]
    | cons x t =>
      subst hr
      have hxt : (x :: t).getLast? = (c :: x :: t).getLast? :=
        (List.getLast?_cons_cons).symm
      rw [ih b (by rw [hxt]; exact hlast)]
      simp

theorem collapse_replicate : ∀ (n : Nat) (b : Str), 3 ≤ n → b.head? ≠ some '\n' →
    collapseNL (List.replicate n '\n' ++ b) = '\n' :: '\n' :: collapseNL b := by
  intro n b hn hb
  obtain ⟨k, rfl⟩ : ∃ k, n = k + 3 := ⟨n - 3, by omega⟩
  have hbhead : ∀ c t, b = c :: t → c ≠ '\n' := by
    intro c t h0 hc
    exact hb (by rw [h0, hc]; rfl)
  have htwb : b.takeWhile (· = '\n') = [] := by
    cases hbb : b with
    | nil => simp
    | cons c t => simp [List.takeWhile_cons, hbhead c t hbb]
  have hdwb : b.dropWhile (· = '\n') = b := by
    cases hbb : b with
    | nil => simp
    | cons c t => simp [List.dropWhile_cons, hbhead c t hbb]
  have hall : ∀ x ∈ List.replicate (k + 2) '\n', ((fun x => decide (x = '\n')) x : Bool) := by
    intro x hx
    simp [(List.mem_replicate.mp hx).2]
  rw [show k + 3 = (k + 2) + 1 by omega, List.replicate_succ, List.cons_append,
    collapseNL_cons_nl]
  rw [takeWhile_append_all b hall, dropWhile_append_all b hall, htwb, hdwb]
  rw [if_pos (by simp)]
  rfl

theorem collapse_id_of_no3run : ∀ s : Str, ¬ (['\n', '\n', '\n'] <:+: s) →
    collapseNL s = s := by
  intro s
  induction s using collapseNL.induct with
  | case1 => intro _; exact collapseNL_nil
  | case2 rest r ih =>
    intro hno
    rw [collapseNL_cons_nl]
    have hlen : ¬ 2 ≤ (rest.takeWhile (· = '\n')).length := by
      intro hge
      apply hno
      cases htw : rest.takeWhile (· = '\n') with
      | nil => rw [htw] at hge; simp at hge
      | cons x u =>
        cases hu : u with
        | nil => rw [htw, hu] at hge; simp at hge
        | cons y v =>
          have hx : x = '\n' := by
            have := List.mem_takeWhile_imp (p := (· = '\n')) (l := rest) (x := x)
              (by rw [htw]; simp)
            simpa using this
          have hy : y = '\n' := by
            have := List.mem_takeWhile_imp (p := (· = '\n')) (l := rest) (x := y)
              (by rw [htw, hu]; simp)
            simpa using this
          have hrest : rest = '\n' :: '\n' :: (v ++ rest.dropWhile (· = '\n')) := by
            conv => lhs; rw [← List.takeWhile_append_dropWhile (· = '\n') rest]
            rw [htw, hu, hx, hy]
            simp
          apply List.IsPrefix.isInfix
          rw [hrest]
          exact ⟨v ++ rest.dropWhile (· = '\n'), rfl⟩
    rw [if_neg hlen]
    have hsuf : rest.dropWhile (· = '\n') <:+: '\n' :: rest :=
      ((List.dropWhile_suffix _).trans (List.suffix_cons '\n' rest)).isInfix
    rw [ih (fun hi => hno (hi.trans hsuf))]
    change '\n' :: (List.takeWhile (fun x => decide (x = '\n')) rest ++
      List.dropWhile (fun x => decide (x = '\n')) rest) = '\n' :: rest
    rw [List.takeWhile_append_dropWhile]
  | case3 c rest hne ih =>
    intro hno
    rw [collapseNL_cons c rest hne]
    rw [ih (fun hi => hno (List.infix_cons_iff.mpr (Or.inr hi)))]

/-- C6 (counterexample): the claim fails in the presence of the hyphen
passes.  `"a-\n\n\nb"` contains a run of three newlines, yet
`normalize_word_breaks` rewrites it to `"ab"` because pattern 2
(`(\w+)-\s*\n\s*(\w+)`) swallows the entire newline run, so no two
consecutive newlines remain at that position. -/
theorem newline_run_cex :
    ("a-\n\n\nb").data = ("a-").data ++ List.replicate 3 '\n' ++ ("b").data ∧
    normalize_word_breaks ("a-\n\n\nb").data = ("ab").data := by
  constructor
  · decide
  · simp only [normalize_eq_fuel]
    decide

/-- C6 (amended): on hyphen-free text the claim holds: a run of `n ≥ 3`
newlines between clean boundaries collapses to exactly two newlines at that
position, and hyphen-free text with no three-newline run anywhere is left
completely unchanged (runs of one or two newlines are never reduced). -/
theorem newline_collapse_amended :
    (∀ (a b : Str) (n : Nat), 3 ≤ n → '-' ∉ a → '-' ∉ b →
        a.getLast? ≠ some '\n' → b.head? ≠ some '\n' →
        normalize_word_breaks (a ++ List.replicate n '\n' ++ b) =
          collapseNL a ++ ['\n', '\n'] ++ collapseNL b) ∧
    (∀ t : Str, '-' ∉ t → ¬ (['\n', '\n', '\n'] <:+: t) →
        normalize_word_breaks t = t) := by
  constructor
  · intro a b n hn ha hb hal hbh
    have hnh : '-' ∉ a ++ List.replicate n '\n' ++ b := by
      intro hm
      rcases List.mem_append.mp hm with hm1 | hm2
      · rcases List.mem_append.mp hm1 with hm3 | hm4
        · exact ha hm3
        · have := (List.mem_replicate.mp hm4).2
          simp at this
      · exact hb hm2
    rw [normalize_eq_collapse_of_no_hyphen hnh, List.append_assoc,
      collapse_append_clean a _ hal, collapse_replicate n b hn hbh]
    simp
  · intro t ht hno
    rw [normalize_eq_collapse_of_no_hyphen ht, collapse_id_of_no3run t hno]

/-- C6 (witness): the amended theorem applied at the concrete inputs
`"a" ++ "\n\n\n" ++ "b"` and `"x\ny"`. -/
theorem newline_collapse_amended_witness :
    normalize_word_breaks (("a").data ++ List.replicate 3 '\n' ++ ("b").data) =
      collapseNL ("a").data ++ ['\n', '\n'] ++ collapseNL ("b").data ∧
    normalize_word_breaks ("x\ny").data = ("x\ny").data :=
  ⟨newline_collapse_amended.1 _ _ 3 (by decide) (by decide) (by decide)
      (by decide) (by decide),
    newline_collapse_amended.2 _ (by decide) (by decide)⟩

/-! ### Behaviour of `sub1` on an isolated `"foo - bar"` occurrence -/

theorem try1_nil : try1 ([] : Str) = none := by decide

theorem sub1_some_step {s rep rem : Str} (h : try1 s = some (rep, rem)) :
    sub1 s = rep ++ sub1 rem := by
  cases s with
  | nil => rw [try1_nil] at h; exact Option.noConfusion h
  | cons c rest => rw [sub1, h]

theorem sub1_none_step {c : Char} {rest : Str} (h : try1 (c :: rest) = none) :
    sub1 (c :: rest) = c :: sub1 rest := by
  rw [sub1, h]

theorem try1_foo_bar (u v : Str) (hu : ∀ c ∈ u, isWordChar c) :
    try1 (u ++ ("foo - bar").data ++ v) =
      some ((u ++ ('f' :: 'o' :: 'o' :: [])) ++ ('b' :: 'a' :: 'r' :: v.takeWhile isWordChar),
        v.dropWhile isWordChar) := by
  have hshape : u ++ ("foo - bar").data ++ v =
      u ++ ('f' :: 'o' :: 'o' :: ' ' :: '-' :: ' ' :: 'b' :: 'a' :: 'r' :: v) := by
    rw [List.append_assoc]
    rfl
  rw [hshape]
  have hfoo3 : ∀ c ∈ ['f', 'o', 'o'], isWordChar c := by decide
  have htw : (u ++ ('f' :: 'o' :: 'o' :: ' ' :: '-' :: ' ' :: 'b' :: 'a' :: 'r' :: v)).takeWhile
      isWordChar = u ++ ('f' :: 'o' :: 'o' :: []) := by
    rw [show ('f' :: 'o' :: 'o' :: ' ' :: '-' :: ' ' :: 'b' :: 'a' :: 'r' :: v) =
      ['f', 'o', 'o'] ++ (' ' :: '-' :: ' ' :: 'b' :: 'a' :: 'r' :: v) from rfl]
    rw [takeWhile_append_all _ hu, takeWhile_append_all _ hfoo3]
    simp [List.takeWhile_cons, show isWordChar ' ' = false from by decide]
  have hdw : (u ++ ('f' :: 'o' :: 'o' :: ' ' :: '-' :: ' ' :: 'b' :: 'a' :: 'r' :: v)).dropWhile
      isWordChar = ' ' :: '-' :: ' ' :: 'b' :: 'a' :: 'r' :: v := by
    rw [show ('f' :: 'o' :: 'o' :: ' ' :: '-' :: ' ' :: 'b' :: 'a' :: 'r' :: v) =
      ['f', 'o', 'o'] ++ (' ' :: '-' :: ' ' :: 'b' :: 'a' :: 'r' :: v) from rfl]
    rw [dropWhile_append_all _ hu, dropWhile_append_all _ hfoo3]
    simp [List.dropWhile_cons, show isWordChar ' ' = false from by decide]
  have hws1 : (' ' :: '-' :: ' ' :: 'b' :: 'a' :: 'r' :: v).takeWhile isPySpace = [' '] := by
    simp [List.takeWhile_cons, show isPySpace ' ' = true from by decide,
      show isPySpace '-' = false from by decide]
  have hr2 : (' ' :: '-' :: ' ' :: 'b' :: 'a' :: 'r' :: v).dropWhile isPySpace =
      '-' :: ' ' :: 'b' :: 'a' :: 'r' :: v := by
    simp [List.dropWhile_cons, show isPySpace ' ' = true from by decide,
      show isPySpace '-' = false from by decide]
  have hws2 : (' ' :: 'b' :: 'a' :: 'r' :: v).takeWhile isPySpace = [' '] := by
    simp [List.takeWhile_cons, show isPySpace ' ' = true from by decide,
      show isPySpace 'b' = false from by decide]
  have hr4 : (' ' :: 'b' :: 'a' :: 'r' :: v).dropWhile isPySpace = 'b' :: 'a' :: 'r' :: v := by
    simp [List.dropWhile_cons, show isPySpace ' ' = true from by decide,
      show isPySpace 'b' = false from by decide]
  have hw2 : ('b' :: 'a' :: 'r' :: v).takeWhile isWordChar =
      'b' :: 'a' :: 'r' :: v.takeWhile isWordChar := by
    simp [List.takeWhile_cons, show isWordChar 'b' = true from by decide,
      show isWordChar 'a' = true from by decide, show isWordChar 'r' = true from by decide]
  have hr5 : ('b' :: 'a' :: 'r' :: v).dropWhile isWordChar = v.dropWhile isWordChar := by
    simp [List.dropWhile_cons, show isWordChar 'b' = true from by decide,
      show isWordChar 'a' = true from by decide, show isWordChar 'r' = true from by decide]
  unfold try1
  dsimp only
  rw [htw, hdw, hws1, hr2]
  rw [show ('-' :: ' ' :: 'b' :: 'a' :: 'r' :: v).drop 1 = ' ' :: 'b' :: 'a' :: 'r' :: v from rfl]
  rw [hws2, hr4, hw2, hr5]
  rw [if_pos]
  refine ⟨?_, by simp, rfl, by simp, by simp⟩
  exact List.append_ne_nil_of_right_ne_nil u (by simp)

theorem sub1_allword (u v : Str) (hu : ∀ c ∈ u, isWordChar c) (hv : '-' ∉ v) :
    sub1 (u ++ ("foo - bar").data ++ v) = u ++ ("foobar").data ++ v := by
  rw [sub1_some_step (try1_foo_bar u v hu)]
  have hvdrop : '-' ∉ v.dropWhile isWordChar := fun hm => hv (mem_of_mem_dropWhile hm)
  rw [sub1_id_of_no_hyphen _ hvdrop]
  rw [show (u ++ ('f' :: 'o' :: 'o' :: [])) ++ ('b' :: 'a' :: 'r' :: v.takeWhile isWordChar) =
    u ++ (("foobar").data ++ v.takeWhile isWordChar) from by simp]
  rw [List.append_assoc, List.append_assoc, List.append_assoc]
  congr 2
  rw [List.takeWhile_append_dropWhile]

theorem try1_none_of_bad_word (u v : Str) (hbad : ∃ c ∈ u, ¬ isWordChar c)
    (hnoh : '-' ∉ u) : try1 (u ++ ("foo - bar").data ++ v) = none := by
  have hshape : u ++ ("foo - bar").data ++ v =
      u ++ ('f' :: 'o' :: 'o' :: ' ' :: '-' :: ' ' :: 'b' :: 'a' :: 'r' :: v) := by
    rw [List.append_assoc]
    rfl
  rw [hshape]
  set Y := 'f' :: 'o' :: 'o' :: ' ' :: '-' :: ' ' :: 'b' :: 'a' :: 'r' :: v with hY
  have hdw : (u ++ Y).dropWhile isWordChar = u.dropWhile isWordChar ++ Y :=
    dropWhile_append_bad _ hbad
  unfold try1
  dsimp only
  rw [if_neg]
  intro hcond
  obtain ⟨-, -, h3, -, -⟩ := hcond
  rw [hdw] at h3
  by_cases hsp : ∀ c ∈ u.dropWhile isWordChar, isPySpace c
  · rw [dropWhile_append_all _ hsp] at h3
    rw [show Y.dropWhile isPySpace = Y from by
      rw [hY]; simp [List.dropWhile_cons, show isPySpace 'f' = false from by decide]] at h3
    rw [hY] at h3
    simp at h3
  · have hex2 : ∃ c ∈ u.dropWhile isWordChar, ¬ isPySpace c := by
      by_contra hno
      exact hsp (fun c hc => by
        by_contra hnc
        exact hno ⟨c, hc, hnc⟩)
    rw [dropWhile_append_bad _ hex2] at h3
    have hne2 : (u.dropWhile isWordChar).dropWhile isPySpace ≠ [] :=
      dropWhile_ne_nil_of_bad hex2
    cases hds : (u.dropWhile isWordChar).dropWhile isPySpace with
    | nil => exact hne2 hds
    | cons d ds =>
      rw [hds, List.cons_append, List.head?_cons] at h3
      have hdmem : d ∈ u :=
        mem_of_mem_dropWhile (mem_of_mem_dropWhile (by rw [hds]; simp))
      have hd : d = '-' := by simpa using h3
      exact hnoh (hd ▸ hdmem)

theorem sub1_contains_foobar : ∀ (u v : Str), '-' ∉ u → '-' ∉ v →
    (∃ A B : Str, sub1 (u ++ ("foo - bar").data ++ v) = A ++ ("foobar").data ++ B) ∧
    '-' ∉ sub1 (u ++ ("foo - bar").data ++ v) := by
  intro u
  induction u with
  | nil =>
    intro v _ hv
    rw [show ([] : Str) ++ ("foo - bar").data ++ v = [] ++ ("foo - bar").data ++ v from rfl,
      sub1_allword [] v (by simp) hv]
    refine ⟨⟨[], v, rfl⟩, ?_⟩
    intro hm
    simp only [List.nil_append, List.mem_append] at hm
    rcases hm with hm | hm
    · revert hm; decide
    · exact hv hm
  | cons c u' ih =>
    intro v hu hv
    have hcne : c ≠ '-' := by
      intro h0
      exact hu (by rw [h0]; simp)
    have hu' : '-' ∉ u' := fun h => hu (List.mem_cons_of_mem _ h)
    by_cases hall : ∀ x ∈ c :: u', isWordChar x
    · rw [sub1_allword (c :: u') v hall hv]
      refine ⟨⟨c :: u', v, rfl⟩, ?_⟩
      intro hm
      simp only [List.mem_append] at hm
      rcases hm with (hm | hm) | hm
      · exact hu hm
      · revert hm; decide
      · exact hv hm
    · have hbad : ∃ x ∈ c :: u', ¬ isWordChar x := by
        by_contra hno
        exact hall (fun x hx => by
          by_contra hnx
          exact hno ⟨x, hx, hnx⟩)
      have hnone := try1_none_of_bad_word (c :: u') v hbad hu
      rw [show (c :: u') ++ ("foo - bar").data ++ v =
        c :: (u' ++ ("foo - bar").data ++ v) from by simp] at hnone ⊢
      rw [sub1_none_step hnone]
      obtain ⟨⟨A, B, heq⟩, hno⟩ := ih v hu' hv
      refine ⟨⟨c :: A, B, by rw [heq]; simp⟩, ?_⟩
      intro hm
      rcases List.mem_cons.mp hm with h0 | h0
      · exact hcne h0.symm
      · exact hno h0

/-! ### `collapseNL` preserves newline-free infixes -/

theorem collapse_nonl_append : ∀ (a b : Str), (∀ c ∈ a, c ≠ '\n') →
    collapseNL (a ++ b) = a ++ collapseNL b := by
  intro a
  induction a with
  | nil => intro b _; simp
  | cons c a' ih =>
    intro b h
    have hc : c ≠ '\n' := h c (by simp)
    rw [List.cons_append, collapseNL_cons c _ hc, ih b (fun x hx => h x (by simp [hx]))]
    rfl

theorem infix_drop_nl : ∀ (w r pat : Str), pat ≠ [] → '\n' ∉ pat →
    (∀ c ∈ w, c = '\n') → pat <:+: w ++ r → pat <:+: r := by
  intro w
  induction w with
  | nil => intro r pat _ _ _ h; simpa using h
  | cons n w' ih =>
    intro r pat hne hnl hw h
    have hn : n = '\n' := hw n (by simp)
    rw [List.cons_append] at h
    rcases List.infix_cons_iff.mp h with hpre | hinf
    · exfalso
      cases pat with
      | nil => exact hne rfl
      | cons p pt =>
        obtain ⟨z, hz⟩ := hpre
        rw [List.cons_append] at hz
        have : p = n := (List.cons.injEq _ _ _ _).mp hz |>.1
        exact hnl (by rw [this, hn]; simp)
    · exact ih r pat hne hnl (fun x hx => hw x (by simp [hx])) hinf

theorem infix_collapseNL (pat : Str) (hne : pat ≠ []) (hnl : '\n' ∉ pat) :
    ∀ s : Str, pat <:+: s → pat <:+: collapseNL s := by
  intro s
  induction s using collapseNL.induct with
  | case1 =>
    intro h
    rw [collapseNL_nil]
    exact h
  | case2 rest r ih =>
    intro h
    rw [collapseNL_cons_nl]
    have hinf : pat <:+: rest := by
      rcases List.infix_cons_iff.mp h with hpre | hinf
      · exfalso
        cases pat with
        | nil => exact hne rfl
        | cons p pt =>
          obtain ⟨z, hz⟩ := hpre
          rw [List.cons_append] at hz
          have : p = '\n' := (List.cons.injEq _ _ _ _).mp hz |>.1
          exact hnl (by rw [this]; simp)
      · exact hinf
    have hinr : pat <:+: rest.dropWhile (· = '\n') := by
      apply infix_drop_nl (rest.takeWhile (· = '\n')) _ pat hne hnl
      · intro x hx
        have := List.mem_takeWhile_imp hx
        simpa using this
      · rw [List.takeWhile_append_dropWhile]
        exact hinf
    exact (ih hinr).trans (List.suffix_append _ _).isInfix
  | case3 c rest hcne ih =>
    intro h
    rw [collapseNL_cons c rest hcne]
    rcases List.infix_cons_iff.mp h with hpre | hinf
    · cases pat with
      | nil => exact absurd rfl hne
      | cons p pt =>
        obtain ⟨z, hz⟩ := hpre
        rw [List.cons_append] at hz
        obtain ⟨hpc, hrest⟩ := (List.cons.injEq _ _ _ _).mp hz
        have hptnl : ∀ x ∈ pt, x ≠ '\n' := by
          intro x hx h0
          subst h0
          exact hnl (List.mem_cons_of_mem _ hx)
        apply List.IsPrefix.isInfix
        rw [← hrest, collapse_nonl_append pt z hptnl, hpc]
        exact ⟨collapseNL z, by simp⟩
    · exact List.infix_cons_iff.mpr (Or.inr (ih hinf))

/-- C5 (counterexample): on `"x - foo - bar"` (which contains
`"foo - bar"`), the leftmost match of pattern 1 is `"x - foo"`, so the
normalizer produces `"xfoo - bar"`, which does not contain `"foobar"` and
still contains `"foo - bar"` — both conjuncts of the claim fail. -/
theorem foo_bar_merge_cex :
    (("foo - bar").data <:+: ("x - foo - bar").data) ∧
    normalize_word_breaks ("x - foo - bar").data = ("xfoo - bar").data ∧
    ¬ (("foobar").data <:+: normalize_word_breaks ("x - foo - bar").data) ∧
    (("foo - bar").data <:+: normalize_word_breaks ("x - foo - bar").data) := by
  have h2 : normalize_word_breaks ("x - foo - bar").data = ("xfoo - bar").data := by
    simp only [normalize_eq_fuel]
    decide
  exact ⟨by decide, h2, by rw [h2]; decide, by rw [h2]; decide⟩

/-- C5 (amended): the claim holds whenever the `"foo - bar"` occurrence is
isolated, i.e. the surrounding text contains no further hyphen: for all `u`
and `v` free of `'-'`, `normalize_word_breaks (u ++ "foo - bar" ++ v)`
contains `"foobar"` and does not contain `"foo - bar"`. -/
theorem normalize_foobar_of_isolated (u v : Str) (hu : '-' ∉ u) (hv : '-' ∉ v) :
    (("foobar").data <:+: normalize_word_breaks (u ++ ("foo - bar").data ++ v)) ∧
    ¬ (("foo - bar").data <:+: normalize_word_breaks (u ++ ("foo - bar").data ++ v)) := by
  obtain ⟨⟨A, B, heq⟩, hno⟩ := sub1_contains_foobar u v hu hv
  have htne : u ++ ("foo - bar").data ++ v ≠ [] := by
    intro h0
    have := congrArg List.length h0
    simp at this
  have hnormal : normalize_word_breaks (u ++ ("foo - bar").data ++ v) =
      collapseNL (sub1 (u ++ ("foo - bar").data ++ v)) := by
    unfold normalize_word_breaks
    rw [if_neg htne, sub2_id_of_no_hyphen _ hno, sub3_id_of_no_hyphen _ hno]
  constructor
  · rw [hnormal]
    apply infix_collapseNL ("foobar").data (by decide) (by decide)
    rw [heq]
    exact ⟨A, B, rfl⟩
  · intro hinf
    have hmem : '-' ∈ normalize_word_breaks (u ++ ("foo - bar").data ++ v) :=
      hinf.subset (by decide)
    rw [hnormal] at hmem
    exact hno (mem_collapseNL _ _ hmem)

/-- C5 (witness): the amended theorem applied at the concrete embedding
context `"A " ++ "foo - bar" ++ " z"`, whose surroundings are hyphen-free. -/
theorem normalize_foobar_of_isolated_witness :
    (("foobar").data <:+:
      normalize_word_breaks (("A ").data ++ ("foo - bar").data ++ (" z").data)) ∧
    ¬ (("foo - bar").data <:+:
      normalize_word_breaks (("A ").data ++ ("foo - bar").data ++ (" z").data)) :=
  normalize_foobar_of_isolated _ _ (by decide) (by decide)

set_option maxRecDepth 40000 in
/-- C2 (counterexample): an empty table renders as the empty string, but
the Structured Page Builder still emits wrapper elements for it: for a page
whose only table is empty, the combined-mode output contains a
`<div class="table" data-table="1">` wrapper and the split-mode document
contains a `<div class="tables">` wrapper, so the output is not free of
markup for the empty table. -/
theorem empty_table_wrapper_cex :
    countSub (("<div class=\"table\" data-table=\"1\">").data)
      (joinNL (pages_to_html [⟨1, [], [[]]⟩] ("Doc").data false)) = 1 ∧
    countSub (("<div class=\"tables\">").data)
      ((pages_to_html [⟨1, [], [[]]⟩] ("Doc").data true).headD []) = 1 := by
  constructor
  · decide
  · decide

/-- C2 (amended): an empty table (no rows, or an empty first row) produces
no table element: `table_to_html` returns the empty string for it, so no
`<table>` markup is emitted in either mode; the builder does however still
emit the surrounding wrapper `div`s when the page's `tables` list is
non-empty (shown by the counterexample). -/
theorem table_to_html_empty (tbl : List (List (Option Str)))
    (h : tbl.head? = none ∨ tbl.head? = some []) : table_to_html tbl = [] := by
  cases tbl with
  | nil => rfl
  | cons r0 t =>
    rcases h with h | h
    · simp at h
    · simp only [List.head?_cons, Option.some.injEq] at h
      rw [table_to_html, if_pos h]

/-- C2 (witness): `table_to_html` applied to the concrete empty table
`[[]]` (one empty first row). -/
theorem table_to_html_empty_witness :
    table_to_html [([] : List (Option Str))] = [] :=
  table_to_html_empty _ (Or.inr rfl)

/-! ### Counting occurrences of a marker across concatenations -/

theorem countSub_nil (pat : Str) : countSub pat [] = 0 := rfl

theorem countSub_append (pat : Str) : ∀ (a b : Str),
    (∀ k, 0 < k → k < pat.length → ¬ (pat.take k <:+ a ∧ pat.drop k <+: b)) →
    countSub pat (a ++ b) = countSub pat a + countSub pat b := by
  intro a
  induction a with
  | nil => intro b _; simp [countSub_nil]
  | cons c a' ih =>
    intro b h
    have h' : ∀ k, 0 < k → k < pat.length → ¬ (pat.take k <:+ a' ∧ pat.drop k <+: b) := by
      intro k hk1 hk2 ⟨hs, hp⟩
      exact h k hk1 hk2 ⟨hs.trans (List.suffix_cons c a'), hp⟩
    have hiff : (pat <+: (c :: (a' ++ b))) ↔ (pat <+: (c :: a')) := by
      constructor
      · intro hp
        rw [← List.cons_append] at hp
        by_cases hlen : pat.length ≤ (c :: a').length
        · exact List.prefix_of_prefix_length_le hp (List.prefix_append _ _) hlen
        · exfalso
          push_neg at hlen
          have hca : (c :: a') <+: pat :=
            List.prefix_of_prefix_length_le (List.prefix_append _ _) hp (by omega)
          obtain ⟨rest, hrest⟩ := hca
          have htake : pat.take (c :: a').length = c :: a' := by
            rw [← hrest, List.take_left]
          have hdrop : pat.drop (c :: a').length = rest := by
            rw [← hrest, List.drop_left]
          apply h (c :: a').length (by simp) hlen
          constructor
          · rw [htake]
          · rw [hdrop]
            obtain ⟨w, hw⟩ := hp
            rw [← hrest, List.append_assoc] at hw
            have := List.append_cancel_left hw
            exact ⟨w, this⟩
      · intro hp
        rw [← List.cons_append]
        exact hp.trans (List.prefix_append _ _)
    rw [List.cons_append, countSub, countSub, ih b h']
    by_cases hp : pat <+: (c :: (a' ++ b))
    · rw [if_pos hp, if_pos (hiff.mp hp)]
      omega
    · rw [if_neg hp, if_neg (fun hq => hp (hiff.mpr hq))]
      omega

theorem prefix_head {x : Char} {s b : Str} (h : (x :: s) <+: b) :
    b.head? = some x := by
  obtain ⟨w, hw⟩ := h
  rw [← hw]
  rfl

theorem suffix_getLast {a t : Str} (h : t <:+ a) (hne : t ≠ []) :
    a.getLast? = t.getLast? := by
  obtain ⟨w, hw⟩ := h
  rw [← hw, List.getLast?_append]
  obtain ⟨y, hy⟩ := getLast?_isSome_of_ne_nil hne
  rw [hy]
  rfl

theorem countSub_h2_append_headsafe (a b : Str)
    (hb : ∀ x, b.head? = some x → x ≠ 'h' ∧ x ≠ '2' ∧ x ≠ '>') :
    countSub (("<h2>").data) (a ++ b) =
      countSub (("<h2>").data) a + countSub (("<h2>").data) b := by
  apply countSub_append
  intro k hk1 hk2 hkd
  obtain ⟨-, hdrop⟩ := hkd
  have hk : k = 1 ∨ k = 2 ∨ k = 3 := by
    simp only [show (("<h2>").data).length = 4 from by decide] at hk2
    omega
  rcases hk with rfl | rfl | rfl
  · have := prefix_head (x := 'h') (s := ['2', '>']) hdrop
    exact (hb 'h' this).1 rfl
  · have := prefix_head (x := '2') (s := ['>']) hdrop
    exact (hb '2' this).2.1 rfl
  · have := prefix_head (x := '>') (s := []) hdrop
    exact (hb '>' this).2.2 rfl

theorem countSub_h2_append_lastsafe (a b : Str)
    (ha : ∀ x, a.getLast? = some x → x ≠ '<' ∧ x ≠ 'h' ∧ x ≠ '2') :
    countSub (("<h2>").data) (a ++ b) =
      countSub (("<h2>").data) a + countSub (("<h2>").data) b := by
  apply countSub_append
  intro k hk1 hk2 hkd
  obtain ⟨htake, -⟩ := hkd
  have hk : k = 1 ∨ k = 2 ∨ k = 3 := by
    simp only [show (("<h2>").data).length = 4 from by decide] at hk2
    omega
  rcases hk with rfl | rfl | rfl
  · have := suffix_getLast htake (by decide)
    exact (ha '<' (by rw [this]; decide)).1 rfl
  · have := suffix_getLast htake (by decide)
    exact (ha 'h' (by rw [this]; decide)).2.1 rfl
  · have := suffix_getLast htake (by decide)
    exact (ha '2' (by rw [this]; decide)).2.2 rfl

theorem countSub_zero_of_head_notmem {p : Char} {pr : Str} : ∀ {a : Str},
    p ∉ a → countSub (p :: pr) a = 0 := by
  intro a
  induction a with
  | nil => intro _; rfl
  | cons c t ih =>
    intro h
    have hcp : p ≠ c := fun h0 => h (by rw [h0]; simp)
    rw [countSub, if_neg, ih (fun hm => h (List.mem_cons_of_mem _ hm))]
    intro hpre
    obtain ⟨w, hw⟩ := hpre
    rw [List.cons_append] at hw
    exact hcp ((List.cons.injEq _ _ _ _).mp hw).1

theorem countSub_h2_joinNL : ∀ parts : List Str,
    countSub (("<h2>").data) (joinNL parts) =
      (parts.map (countSub (("<h2>").data))).sum := by
  intro parts
  induction parts with
  | nil => simp [joinNL, countSub_nil]
  | cons p ps ih =>
    cases ps with
    | nil => simp [joinNL]
    | cons q rest =>
      rw [joinNL,
        show p ++ '\n' :: joinNL (q :: rest) = p ++ (['\n'] ++ joinNL (q :: rest)) from rfl,
        countSub_h2_append_headsafe p _ (by intro x hx; simp at hx; subst hx; decide),
        countSub_h2_append_lastsafe ['\n'] _ (by intro x hx; simp at hx; subst hx; decide),
        show countSub (("<h2>").data) ['\n'] = 0 from by decide, ih]
      simp [List.map_cons, List.sum_cons]

/-! ### The pieces of a rendered page contain no stray `<h2>` -/

theorem escapeChar_no_lt (c : Char) : '<' ∉ escapeChar c := by
  unfold escapeChar
  split_ifs with h1 h2 h3 h4 h5
  · decide
  · decide
  · decide
  · decide
  · decide
  · intro hm
    simp at hm
    exact h2 hm.symm

theorem htmlEscape_no_lt (s : Str) : '<' ∉ htmlEscape s := by
  intro hm
  rw [htmlEscape] at hm
  obtain ⟨a, -, hin⟩ := List.mem_flatMap.mp hm
  exact escapeChar_no_lt a hin

theorem countSub_h2_escape (s : Str) : countSub (("<h2>").data) (htmlEscape s) = 0 :=
  countSub_zero_of_head_notmem (htmlEscape_no_lt s)

theorem digitChar_isDigit {k : Nat} (h : k < 10) : (Nat.digitChar k).isDigit := by
  interval_cases k <;> decide

theorem natStrAux_digits : ∀ (fuel n : Nat), ∀ c ∈ natStrAux fuel n, c.isDigit := by
  intro fuel
  induction fuel with
  | zero => intro n c hc; simp [natStrAux] at hc
  | succ f ih =>
    intro n c hc
    rw [natStrAux] at hc
    by_cases hn : n < 10
    · rw [if_pos hn] at hc
      simp at hc
      rw [hc]
      exact digitChar_isDigit hn
    · rw [if_neg hn] at hc
      rcases List.mem_append.mp hc with hm | hm
      · exact ih _ c hm
      · simp at hm
        rw [hm]
        exact digitChar_isDigit (Nat.mod_lt n (by omega))

theorem natStr_digits (n : Nat) : ∀ c ∈ natStr n, c.isDigit :=
  natStrAux_digits (n + 1) n

theorem countSub_h2_natStr (n : Nat) : countSub (("<h2>").data) (natStr n) = 0 := by
  apply countSub_zero_of_head_notmem
  intro hm
  have := natStr_digits n '<' hm
  exact absurd this (by decide)

theorem headsafe_of_head_eq {b : Str} {c : Char} (hb : b.head? = some c)
    (hc : c ≠ 'h' ∧ c ≠ '2' ∧ c ≠ '>') :
    ∀ x, b.head? = some x → x ≠ 'h' ∧ x ≠ '2' ∧ x ≠ '>' := by
  intro x hx
  rw [hb] at hx
  cases Option.some.inj hx
  exact hc

theorem lastsafe_of_getLast_eq {a : Str} {c : Char} (ha : a.getLast? = some c)
    (hc : c ≠ '<' ∧ c ≠ 'h' ∧ c ≠ '2') :
    ∀ x, a.getLast? = some x → x ≠ '<' ∧ x ≠ 'h' ∧ x ≠ '2' := by
  intro x hx
  rw [ha] at hx
  cases Option.some.inj hx
  exact hc

theorem getLast?_append_right {a b : Str} (hb : b ≠ []) :
    (a ++ b).getLast? = b.getLast? := by
  rw [List.getLast?_append]
  obtain ⟨y, hy⟩ := getLast?_isSome_of_ne_nil hb
  rw [hy]
  rfl

theorem countSub_h2_headPart (title : Str) (n : Nat)
    (ht : countSub (("<h2>").data) title = 0) :
    countSub (("<h2>").data)
      (("<html><head><title>").data ++ title ++ (" - Page ").data ++ natStr n
        ++ ("</title></head><body>").data) = 0 := by
  rw [countSub_h2_append_headsafe _ _ (headsafe_of_head_eq (c := '<') (by decide) (by decide))]
  rw [countSub_h2_append_lastsafe _ _ (lastsafe_of_getLast_eq (c := ' ')
    (by rw [getLast?_append_right (by decide)]; decide) (by decide))]
  rw [countSub_h2_append_headsafe _ _ (headsafe_of_head_eq (c := ' ') (by decide) (by decide))]
  rw [countSub_h2_append_lastsafe _ _ (lastsafe_of_getLast_eq (c := '>') (by decide) (by decide))]
  rw [show countSub (("<h2>").data) (("<html><head><title>").data) = 0 from by decide,
    ht, countSub_h2_natStr,
    show countSub (("<h2>").data) ((" - Page ").data) = 0 from by decide,
    show countSub (("<h2>").data) (("</title></head><body>").data) = 0 from by decide]

theorem countSub_h2_h1Part (title : Str)
    (ht : countSub (("<h2>").data) title = 0) :
    countSub (("<h2>").data) (("<h1>").data ++ title ++ ("</h1>").data) = 0 := by
  rw [countSub_h2_append_headsafe _ _ (headsafe_of_head_eq (c := '<') (by decide) (by decide))]
  rw [countSub_h2_append_lastsafe _ _ (lastsafe_of_getLast_eq (c := '>') (by decide) (by decide))]
  rw [show countSub (("<h2>").data) (("<h1>").data) = 0 from by decide, ht,
    show countSub (("<h2>").data) (("</h1>").data) = 0 from by decide]

theorem countSub_h2_headingPart (n : Nat) :
    countSub (("<h2>").data)
      (("<h2>Page ").data ++ natStr n ++ ("</h2>").data) = 1 := by
  rw [countSub_h2_append_headsafe _ _ (headsafe_of_head_eq (c := '<') (by decide) (by decide))]
  rw [countSub_h2_append_lastsafe _ _ (lastsafe_of_getLast_eq (c := ' ') (by decide) (by decide))]
  rw [show countSub (("<h2>").data) (("<h2>Page ").data) = 1 from by decide,
    countSub_h2_natStr,
    show countSub (("<h2>").data) (("</h2>").data) = 0 from by decide]

theorem countSub_h2_prePart (text : Str) :
    countSub (("<h2>").data)
      (("<pre style=\"white-space: pre-wrap; font-family: Arial, sans-serif;\">").data
        ++ htmlEscape text ++ ("</pre>").data) = 0 := by
  rw [countSub_h2_append_headsafe _ _ (headsafe_of_head_eq (c := '<') (by decide) (by decide))]
  rw [countSub_h2_append_lastsafe _ _ (lastsafe_of_getLast_eq (c := '>') (by decide) (by decide))]
  rw [show countSub (("<h2>").data)
      (("<pre style=\"white-space: pre-wrap; font-family: Arial, sans-serif;\">").data) = 0
      from by decide,
    countSub_h2_escape,
    show countSub (("<h2>").data) (("</pre>").data) = 0 from by decide]

theorem countSub_h2_cellToHtml (i : Nat) (cell : Option Str) :
    countSub (("<h2>").data) (cellToHtml i cell) = 0 := by
  unfold cellToHtml
  by_cases hi : i = 0
  · rw [if_pos hi, if_pos hi]
    rw [countSub_h2_append_headsafe _ _ (headsafe_of_head_eq (c := '<') (by decide) (by decide))]
    rw [countSub_h2_append_lastsafe _ _ (lastsafe_of_getLast_eq (c := '>') (by decide) (by decide))]
    rw [show countSub (("<h2>").data) (("    <th>").data) = 0 from by decide,
      countSub_h2_escape,
      show countSub (("<h2>").data) (("</th>").data) = 0 from by decide]
  · rw [if_neg hi, if_neg hi]
    rw [countSub_h2_append_headsafe _ _ (headsafe_of_head_eq (c := '<') (by decide) (by decide))]
    rw [countSub_h2_append_lastsafe _ _ (lastsafe_of_getLast_eq (c := '>') (by decide) (by decide))]
    rw [show countSub (("<h2>").data) (("    <td>").data) = 0 from by decide,
      countSub_h2_escape,
      show countSub (("<h2>").data) (("</td>").data) = 0 from by decide]

theorem countSub_h2_table (tbl : List (List (Option Str))) :
    countSub (("<h2>").data) (table_to_html tbl) = 0 := by
  cases tbl with
  | nil => rfl
  | cons r0 t =>
    rw [table_to_html]
    by_cases h0 : r0 = []
    · rw [if_pos h0]
      rfl
    · rw [if_neg h0, countSub_h2_joinNL]
      apply List.sum_eq_zero
      intro x hx
      obtain ⟨line, hline, rfl⟩ := List.mem_map.mp hx
      rcases List.mem_cons.mp hline with rfl | hline
      · decide
      · rcases List.mem_append.mp hline with hline | hline
        · obtain ⟨ir, -, hline⟩ := List.mem_flatMap.mp hline
          unfold rowToHtml at hline
          rcases List.mem_cons.mp hline with rfl | hline
          · decide
          · rcases List.mem_append.mp hline with hline | hline
            · obtain ⟨cell, -, rfl⟩ := List.mem_map.mp hline
              exact countSub_h2_cellToHtml _ _
            · simp at hline
              rw [hline]
              decide
        · simp at hline
          rw [hline]
          decide

theorem countSub_h2_splitDoc (title : Str) (p : PageRecord)
    (ht : countSub (("<h2>").data) title = 0) :
    countSub (("<h2>").data) (joinNL (splitPageParts title p)) = 1 := by
  rw [countSub_h2_joinNL]
  unfold splitPageParts
  rw [List.map_append, List.map_append, List.map_append, List.sum_append,
    List.sum_append, List.sum_append]
  have h1 : (List.map (countSub (("<h2>").data))
      [("<html><head><title>").data ++ title ++ (" - Page ").data ++ natStr p.page_num
          ++ ("</title></head><body>").data,
        ("<h1>").data ++ title ++ ("</h1>").data,
        ("<h2>Page ").data ++ natStr p.page_num ++ ("</h2>").data]).sum = 1 := by
    rw [List.map_cons, List.map_cons, List.map_cons, List.map_nil]
    rw [countSub_h2_headPart title p.page_num ht, countSub_h2_h1Part title ht,
      countSub_h2_headingPart p.page_num]
    rfl
  have h2 : (List.map (countSub (("<h2>").data)) (textBlockParts p.text)).sum = 0 := by
    unfold textBlockParts
    by_cases hx : p.text = []
    · rw [if_pos hx]
      rfl
    · rw [if_neg hx]
      rw [List.map_cons, List.map_cons, List.map_cons, List.map_nil]
      rw [countSub_h2_prePart p.text,
        show countSub (("<h2>").data) (("<div class=\"text-content\">").data) = 0
          from by decide,
        show countSub (("<h2>").data) (("</div>").data) = 0 from by decide]
      rfl
  have h3 : (List.map (countSub (("<h2>").data))
      (if p.tables = [] then []
       else [("<div class=\"tables\">").data] ++ p.tables.map table_to_html
         ++ [("</div>").data])).sum = 0 := by
    by_cases hx : p.tables = []
    · rw [if_pos hx]
      rfl
    · rw [if_neg hx]
      apply List.sum_eq_zero
      intro x hx2
      obtain ⟨line, hline, rfl⟩ := List.mem_map.mp hx2
      rcases List.mem_append.mp hline with hline | hline
      · rcases List.mem_append.mp hline with hline | hline
        · simp at hline
          rw [hline]
          decide
        · obtain ⟨tbl, -, rfl⟩ := List.mem_map.mp hline
          exact countSub_h2_table tbl
      · simp at hline
        rw [hline]
        decide
  have h4 : (List.map (countSub (("<h2>").data)) [("</body></html>").data]).sum = 0 := by
    decide
  rw [h1, h2, h3, h4]

theorem infix_joinNL_of_mem : ∀ (parts : List Str) (p : Str), p ∈ parts →
    p <:+: joinNL parts := by
  intro parts
  induction parts with
  | nil => intro p hp; simp at hp
  | cons q ps ih =>
    intro p hp
    cases ps with
    | nil =>
      simp at hp
      rw [hp, joinNL]
    | cons q2 rest =>
      rcases List.mem_cons.mp hp with rfl | hp
      · rw [joinNL]
        exact ⟨[], '\n' :: joinNL (q2 :: rest), rfl⟩
      · rw [joinNL, show q ++ '\n' :: joinNL (q2 :: rest) =
          (q ++ ['\n']) ++ joinNL (q2 :: rest) from by simp]
        exact (ih p hp).trans (List.suffix_append _ _).isInfix

set_option maxRecDepth 40000 in
/-- C7 (counterexample): the title is interpolated into the documents
without escaping, so a title containing `"<h2>"` defeats the claim: with
title `"<h2>Page 9</h2>"` the single split-mode document contains three
occurrences of the `<h2>` heading marker, not exactly one. -/
theorem split_title_heading_cex :
    (pages_to_html [⟨1, [], []⟩] (("<h2>Page 9</h2>").data) true).map
      (countSub (("<h2>").data)) = [3] := by decide

/-- C7 (amended): for every title that does not contain `"<h2>"`, split-mode
rendering of `N` page records yields exactly `N` documents, the `i`-th built
solely from the `i`-th record; each document carries the overall title as an
`<h1>` element and contains exactly one occurrence of `"<h2>"`, namely its
own page heading `<h2>Page {page_num}</h2>`. -/
theorem split_mode_amended (pages : List PageRecord) (title : Str)
    (ht : countSub (("<h2>").data) title = 0) :
    (pages_to_html pages title true).length = pages.length ∧
    (∀ i : Nat, (pages_to_html pages title true)[i]? =
      (pages[i]?).map (fun p => joinNL (splitPageParts title p))) ∧
    (∀ d ∈ pages_to_html pages title true, ∃ p ∈ pages,
      d = joinNL (splitPageParts title p) ∧
      countSub (("<h2>").data) d = 1 ∧
      (("<h1>").data ++ title ++ ("</h1>").data) <:+: d ∧
      (("<h2>Page ").data ++ natStr p.page_num ++ ("</h2>").data) <:+: d) := by
  refine ⟨by rw [pages_to_html, if_pos rfl, List.length_map], ?_, ?_⟩
  · intro i
    rw [pages_to_html, if_pos rfl, List.getElem?_map]
  · intro d hd
    rw [pages_to_html, if_pos rfl] at hd
    obtain ⟨p, hp, rfl⟩ := List.mem_map.mp hd
    refine ⟨p, hp, rfl, countSub_h2_splitDoc title p ht, ?_, ?_⟩
    · apply infix_joinNL_of_mem
      unfold splitPageParts
      simp
    · apply infix_joinNL_of_mem
      unfold splitPageParts
      simp

/-- C7 (witness): the amended theorem applied to one concrete page record
and the plain title `"T"`. -/
theorem split_mode_amended_witness :
    (pages_to_html [⟨2, ("t").data, []⟩] ("T").data true).length =
      ([⟨2, ("t").data, []⟩] : List PageRecord).length ∧
    (pages_to_html [⟨2, ("t").data, []⟩] ("T").data true)[0]? =
      (([⟨2, ("t").data, []⟩] : List PageRecord)[0]?).map
        (fun p => joinNL (splitPageParts ("T").data p)) :=
  ⟨(split_mode_amended _ _ (by decide)).1,
    (split_mode_amended _ _ (by decide)).2.1 0⟩

/-! ### Page-marker extraction -/

theorem matchPageNum_digits {s ds : Str} (h : matchPageNum s = some ds) :
    ds ≠ [] ∧ ds.all Char.isDigit := by
  unfold matchPageNum at h
  dsimp only at h
  split at h
  case isTrue =>
    split at h
    case isTrue hc =>
      have hds := Option.some.inj h
      refine ⟨by rw [← hds]; exact hc.2, ?_⟩
      rw [← hds]
      exact List.all_eq_true.mpr (fun c hc2 => List.mem_takeWhile_imp hc2)
    case isFalse => exact Option.noConfusion h
  case isFalse => exact Option.noConfusion h

theorem matchHeadingAt_digits {s ds : Str} (h : matchHeadingAt s = some ds) :
    ds ≠ [] ∧ ds.all Char.isDigit := by
  unfold matchHeadingAt at h
  split at h
  · exact matchPageNum_digits h
  · exact Option.noConfusion h

theorem searchBarePage_digits : ∀ {s ds : Str}, searchBarePage s = some ds →
    ds ≠ [] ∧ ds.all Char.isDigit := by
  intro s
  induction s with
  | nil => intro ds h; rw [searchBarePage] at h; exact Option.noConfusion h
  | cons c rest ih =>
    intro ds h
    rw [searchBarePage] at h
    cases heq : matchPageNum (c :: rest) with
    | some ds2 =>
      rw [heq] at h
      exact matchPageNum_digits (heq.trans (by rw [Option.some.inj h]))
    | none =>
      rw [heq] at h
      exact ih h

theorem searchHeadingPage_digits : ∀ {s ds : Str}, searchHeadingPage s = some ds →
    ds ≠ [] ∧ ds.all Char.isDigit := by
  intro s
  induction s with
  | nil => intro ds h; rw [searchHeadingPage] at h; exact Option.noConfusion h
  | cons c rest ih =>
    intro ds h
    rw [searchHeadingPage] at h
    cases heq : matchHeadingAt (c :: rest) with
    | some ds2 =>
      rw [heq] at h
      exact matchHeadingAt_digits (heq.trans (by rw [Option.some.inj h]))
    | none =>
      rw [heq] at h
      exact ih h

theorem pyIntDigits_isSome {ds : Str} (h1 : ds ≠ []) (h2 : ds.all Char.isDigit) :
    (pyIntDigits ds).isSome := by
  unfold pyIntDigits
  rw [if_pos ⟨h1, h2⟩]
  rfl

/-- C9: whenever one of the two page-marker patterns matches, the captured
group is a non-empty digit string whose integer parse succeeds, so the
`ValueError/IndexError` fallback branch of `extract_page_from_content` is
unreachable; the function returns a number exactly when the content is
non-empty and at least one pattern matches, and it returns `None` on empty
content. -/
theorem extract_page_total :
    (∀ (content ds : Str),
      searchHeadingPage content = some ds ∨ searchBarePage content = some ds →
      ds ≠ [] ∧ ds.all Char.isDigit ∧ (pyIntDigits ds).isSome) ∧
    (∀ content : Str, (extract_page_from_content content).isSome ↔
      content ≠ [] ∧
        ((searchHeadingPage content).isSome ∨ (searchBarePage content).isSome)) ∧
    extract_page_from_content [] = none := by
  refine ⟨?_, ?_, rfl⟩
  · intro content ds h
    have hd : ds ≠ [] ∧ ds.all Char.isDigit := by
      rcases h with h | h
      · exact searchHeadingPage_digits h
      · exact searchBarePage_digits h
    exact ⟨hd.1, hd.2, pyIntDigits_isSome hd.1 hd.2⟩
  · intro content
    unfold extract_page_from_content
    by_cases hc : content = []
    · subst hc
      simp [searchHeadingPage]
    · rw [if_neg hc]
      cases hh : searchHeadingPage content with
      | some ds =>
        obtain ⟨h1, h2⟩ := searchHeadingPage_digits hh
        have := pyIntDigits_isSome h1 h2
        cases hp : pyIntDigits ds with
        | some n => simp [tryParseThen, hp, hc, hh]
        | none => rw [hp] at this; simp at this
      | none =>
        cases hb : searchBarePage content with
        | some ds =>
          obtain ⟨h1, h2⟩ := searchBarePage_digits hb
          have := pyIntDigits_isSome h1 h2
          cases hp : pyIntDigits ds with
          | some n => simp [tryParseThen, hp, hc, hb]
          | none => rw [hp] at this; simp at this
        | none => simp [tryParseThen, hc, hh, hb]

/-- C9 (witness): the totality theorem applied at the concrete content
`"## Page 7\nSome text"` and its capture `"7"`. -/
theorem extract_page_total_witness :
    (("7").data ≠ [] ∧ (("7").data).all Char.isDigit ∧
      (pyIntDigits ("7").data).isSome) ∧
    ((extract_page_from_content (("## Page 7\nSome text").data)).isSome ↔
      ("## Page 7\nSome text").data ≠ [] ∧
        ((searchHeadingPage (("## Page 7\nSome text").data)).isSome ∨
          (searchBarePage (("## Page 7\nSome text").data)).isSome)) :=
  ⟨extract_page_total.1 (("## Page 7\nSome text").data) (("7").data)
      (Or.inl (by decide)),
    extract_page_total.2.1 (("## Page 7\nSome text").data)⟩

/-- C3: page-number recovery returns, in priority order, the integer parsed
from the first match of the heading-style marker `##\s*Page\s+(\d+)`, else
from the bare `Page\s+(\d+)` marker, else nothing; in particular
`"## Page 7\nSome text"` yields page 7 and `"no marker here"` yields no
page. -/
theorem extract_page_priority :
    (∀ (content ds : Str), searchHeadingPage content = some ds →
      extract_page_from_content content = pyIntDigits ds) ∧
    (∀ (content ds : Str), searchHeadingPage content = none →
      searchBarePage content = some ds →
      extract_page_from_content content = pyIntDigits ds) ∧
    (∀ content : Str, searchHeadingPage content = none →
      searchBarePage content = none →
      extract_page_from_content content = none) ∧
    extract_page_from_content (("## Page 7\nSome text").data) = some 7 ∧
    extract_page_from_content (("no marker here").data) = none := by
  refine ⟨?_, ?_, ?_, by decide, by decide⟩
  · intro content ds hh
    have hne : content ≠ [] := by
      intro h0
      rw [h0, searchHeadingPage] at hh
      exact Option.noConfusion hh
    obtain ⟨h1, h2⟩ := searchHeadingPage_digits hh
    have hs := pyIntDigits_isSome h1 h2
    unfold extract_page_from_content
    rw [if_neg hne]
    cases hp : pyIntDigits ds with
    | some n => simp [tryParseThen, hh, hp]
    | none => rw [hp] at hs; simp at hs
  · intro content ds hh hb
    have hne : content ≠ [] := by
      intro h0
      rw [h0, searchBarePage] at hb
      exact Option.noConfusion hb
    obtain ⟨h1, h2⟩ := searchBarePage_digits hb
    have hs := pyIntDigits_isSome h1 h2
    unfold extract_page_from_content
    rw [if_neg hne]
    cases hp : pyIntDigits ds with
    | some n => simp [tryParseThen, hh, hb, hp]
    | none => rw [hp] at hs; simp at hs
  · intro content hh hb
    unfold extract_page_from_content
    by_cases hc : content = []
    · rw [if_pos hc]
    · rw [if_neg hc]
      simp [tryParseThen, hh, hb]

/-- C3 (witness): the priority theorem applied at the concrete content
`"## Page 7\nSome text"` with its heading-pattern capture `"7"`. -/
theorem extract_page_priority_witness :
    extract_page_from_content (("## Page 7\nSome text").data) =
      pyIntDigits (("7").data) :=
  extract_page_priority.1 (("## Page 7\nSome text").data) (("7").data) (by decide)

/-! ### Metadata resolution and the search record -/

theorem pyOr_ne_empty {a b : Option Str} (hb : b ≠ some []) :
    pyOr a b ≠ some [] := by
  unfold pyOr
  by_cases h : pyTruthy a
  · rw [if_pos h]
    cases a with
    | none => simp [pyTruthy] at h
    | some s =>
      intro he
      have hs := Option.some.inj he
      subst hs
      simp [pyTruthy] at h
  · rw [if_neg h]
    exact hb

/-- C4 (counterexample): the fallback chains use Python `or`, whose value is
the final candidate when every candidate is falsy.  With an empty-string
value under the final fallback key (`derived title` / `derived link`), the
annotated chunk carries the empty string, not an absent value. -/
theorem metadata_empty_string_cex :
    (mkChunk ⟨⟨[], [], [(("title").data, [])]⟩, ("c").data⟩).title = some [] ∧
    (mkChunk ⟨⟨[], [], [(("link").data, [])]⟩, ("c").data⟩).uri = some [] := by
  constructor
  · decide
  · decide

/-- C4 (amended): each optional provenance field is never a *non-final*
empty candidate: provided the final fallback value (`derived title` for
`title`, `derived link` for `uri`) is not itself the empty string, the field
is never the empty string (it is a truthy candidate or absent); and when all
candidate keys are missing, both fields are absent. -/
theorem metadata_never_nonfinal_empty (r : PyChunkRes) :
    (dictGet r.doc.derived_struct_data (("title").data) ≠ some [] →
      (mkChunk r).title ≠ some []) ∧
    (dictGet r.doc.derived_struct_data (("link").data) ≠ some [] →
      (mkChunk r).uri ≠ some []) ∧
    (r.doc.struct_data = [] → r.doc.derived_struct_data = [] →
      (mkChunk r).title = none ∧ (mkChunk r).uri = none) := by
  refine ⟨?_, ?_, ?_⟩
  · intro hb
    show pyOr _ _ ≠ some []
    exact pyOr_ne_empty hb
  · intro hb
    show pyOr _ _ ≠ some []
    exact pyOr_ne_empty (pyOr_ne_empty hb)
  · intro hs hd
    constructor
    · show pyOr (dictGet r.doc.struct_data (("title").data)) _ = none
      rw [hs, hd]
      rfl
    · show pyOr (dictGet r.doc.struct_data (("uri").data)) _ = none
      rw [hs, hd]
      rfl

/-- C4 (witness): the amended theorem applied to a concrete result with
truthy structured metadata and to one with no metadata at all. -/
theorem metadata_never_nonfinal_empty_witness :
    (mkChunk ⟨⟨[], [(("title").data, ("A").data)], []⟩, ("c").data⟩).title ≠ some [] ∧
    (mkChunk ⟨⟨[], [(("uri").data, ("u").data)], []⟩, ("c").data⟩).uri ≠ some [] ∧
    (mkChunk ⟨⟨[], [], []⟩, ("c").data⟩).title = none :=
  ⟨(metadata_never_nonfinal_empty _).1 (by decide),
    (metadata_never_nonfinal_empty _).2.1 (by decide),
    ((metadata_never_nonfinal_empty _).2.2 rfl rfl).1⟩

/-- C8: when the search backend raises, `search` does not propagate the
exception: it returns a record with an empty chunk list, zero
`total_results`, the original query, and an `error` field carrying the
exception message. -/
theorem search_error_path (q e : Str) :
    search q (Except.error e) =
      { chunks := [], query := q, total_results := 0, error := some e } := rfl

/-- C10: every record returned by `search`, on the success path and on the
error path alike, satisfies `total_results = len(chunks)`, and every listed
chunk has non-empty content (results with falsy chunk content are
skipped). -/
theorem search_invariants (q : Str) (backend : Except Str (List PyChunkRes)) :
    (search q backend).total_results = (search q backend).chunks.length ∧
    ∀ ch ∈ (search q backend).chunks, ch.content ≠ [] := by
  cases backend with
  | error e =>
    refine ⟨rfl, ?_⟩
    intro ch hch
    simp [search] at hch
  | ok results =>
    refine ⟨rfl, ?_⟩
    intro ch hch
    simp only [search] at hch
    obtain ⟨r, -, hr⟩ := List.mem_filterMap.mp hch
    by_cases hc : r.content = []
    · rw [if_pos hc] at hr
      exact Option.noConfusion hr
    · rw [if_neg hc] at hr
      have := Option.some.inj hr
      rw [← this]
      exact hc

/-- C10 (witness): the invariant applied to a concrete backend response
with one truthy and one falsy chunk. -/
theorem search_invariants_witness :
    (search ("q").data (Except.ok
        [⟨⟨("d").data, [], []⟩, ("c").data⟩,
          ⟨⟨("d2").data, [], []⟩, []⟩])).total_results =
      (search ("q").data (Except.ok
        [⟨⟨("d").data, [], []⟩, ("c").data⟩,
          ⟨⟨("d2").data, [], []⟩, []⟩])).chunks.length ∧
    (mkChunk ⟨⟨("d").data, [], []⟩, ("c").data⟩).content ≠ [] :=
  ⟨(search_invariants _ _).1,
    (search_invariants ("q").data (Except.ok
        [⟨⟨("d").data, [], []⟩, ("c").data⟩,
          ⟨⟨("d2").data, [], []⟩, []⟩])).2
      (mkChunk ⟨⟨("d").data, [], []⟩, ("c").data⟩) (by decide)⟩
